import Mathlib

/-!
Verification development for the review-analytics pipeline core
(`fintech_app_reviews`): shallow embedding of the sentiment merge rule,
batched parallel sentiment scoring, keyword tagging, TF-IDF group
extraction, theme assignment, theme-share aggregation and the two text
normalizers, together with theorems settling the specification claims.

Conventions of the embedding:
* Python strings are Lean `String`s (lists of characters); values that may
  be missing (`None` / `NaN`) are `Option String`.
* Floating point scores are modelled as rationals (`ℚ`).
* External engines (the VADER lexicon, the HF transformer model, the
  sklearn TF-IDF vectorizer) are oracle parameters; a raised exception of
  an oracle call is `none` / `Except.error`.
* Python's stable `sorted` is modelled by a stable insertion sort (a
  stable sort by a key is extensionally unique, so this is faithful).
* `re.sub` scanning loops are modelled by left-to-right scanners on
  `List Char`.
-/

/-! ### Generic helpers: Python-style character classes and splitting -/

/-- Python `\s` over the ASCII range (the texts in the pipeline are
cleaned ASCII); used by `str.split()` and by the `\S` of `http\S+`. -/
def pyIsSpace (c : Char) : Bool :=
  c == ' ' || c == '\t' || c == '\n' || c == '\r' || c == '\x0b' || c == '\x0c'

/-- The character class `[a-z0-9]` (complement of `[^a-z0-9\s]` modulo spaces). -/
def isLowerAlnum (c : Char) : Bool :=
  (decide ('a' ≤ c) && decide (c ≤ 'z')) || (decide ('0' ≤ c) && decide (c ≤ '9'))

/-- The character class `[\r\n\t]` of `preprocess_text`. -/
def isCrlfTab (c : Char) : Bool :=
  c == '\r' || c == '\n' || c == '\t'

/-- Python `str.lower()` (ASCII range). -/
def lowerChars (l : List Char) : List Char := l.map Char.toLower

/-- Python `str.lower()` on a `String`. -/
def pyLower (s : String) : String := String.mk (lowerChars s.data)

/-- Accumulator version of Python `str.split()`: split on runs of
whitespace, dropping empty pieces.  `acc` holds the reversed current token. -/
def pySplitAux : List Char → List Char → List (List Char)
  | [], acc => if acc.isEmpty then [] else [acc.reverse]
  | c :: cs, acc =>
    if pyIsSpace c then
      if acc.isEmpty then pySplitAux cs [] else acc.reverse :: pySplitAux cs []
    else pySplitAux cs (c :: acc)

/-- Python `str.split()` (no separator argument). -/
def pySplit (l : List Char) : List (List Char) := pySplitAux l []

/-- Tokens of a string: split on whitespace. -/
def wordsOf (s : String) : List (List Char) := pySplit s.data

/-- Python `" ".join(tokens)`. -/
def joinSpace : List (List Char) → List Char
  | [] => []
  | [t] => t
  | t :: t' :: ts => t ++ ' ' :: joinSpace (t' :: ts)

/-- Python `str.strip()` (whitespace on both ends). -/
def trimChars (l : List Char) : List Char :=
  ((l.dropWhile pyIsSpace).reverse.dropWhile pyIsSpace).reverse

/-- Python `s.split(sep)` for a single-character separator `sep`:
all pieces are kept, including empty ones (`"" -> [""]`). -/
def splitCharAux (sep : Char) : List Char → List Char → List (List Char)
  | [], acc => [acc.reverse]
  | c :: cs, acc =>
    if c == sep then acc.reverse :: splitCharAux sep cs []
    else splitCharAux sep cs (c :: acc)

/-- Python `s.split("|")` on a `String`, as used by the theme exploder. -/
def splitBar (s : String) : List String :=
  (splitCharAux '|' s.data []).map String.mk

/-- Stable insertion step: insert `x` after every element strictly
smaller (by `lt`), before the first element that is not. -/
def insertStable (lt : α → α → Bool) (x : α) : List α → List α
  | [] => [x]
  | y :: ys => if lt y x then y :: insertStable lt x ys else x :: y :: ys

/-- Stable sort by a strict comparator; extensionally equal to Python's
stable `sorted` with the corresponding key. -/
def sortStable (lt : α → α → Bool) (l : List α) : List α :=
  l.foldr (insertStable lt) []

/-- Word-list prefix test (`==` on tokens). -/
def prefixWords : List (List Char) → List (List Char) → Bool
  | [], _ => true
  | _ :: _, [] => false
  | a :: as, b :: bs => a == b && prefixWords as bs

/-- Word-list contiguous-occurrence test: the whole-word, boundary
respecting regex search `\b<phrase>\b` on space-separated normalized text
is containment of the phrase's token list as a contiguous run of the
text's token list. -/
def infixWords (p : List (List Char)) : List (List Char) → Bool
  | [] => p.isEmpty
  | b :: bs => prefixWords p (b :: bs) || infixWords p bs

/-- Case-insensitive whole-word phrase match (compiled pattern
`re.compile(rf"\b{re.escape(kw)}\b", re.I)` searched in the text). -/
def wholeWordMatch (kw text : String) : Bool :=
  infixWords (wordsOf (pyLower kw)) (wordsOf (pyLower text))

/-- Python `separator.join(pieces)`. -/
def joinWith (sep : String) : List String → String
  | [] => ""
  | [x] => x
  | x :: y :: ys => x ++ sep ++ joinWith sep (y :: ys)

/-! ### `nlp/sentiment_compat.py`: `compute_final_sentiment` -/

/-- The three canonical sentiment labels. -/
def canonicalLabels : List String := ["positive", "negative", "neutral"]

/-- The final normalization of `compute_final_sentiment`:
`lambda s: s if s in ("positive","negative","neutral") else "neutral"`. -/
def normalizeLabel (s : String) : String :=
  if s = "positive" || s = "negative" || s = "neutral" then s else "neutral"

/-- One row of the dual-engine annotated frame: HF (model) label and
confidence, VADER (lexicon) label.  `none` models a missing value. -/
structure SentimentRow where
  hf_label : Option String
  hf_score : Option ℚ
  vader_label : Option String
deriving DecidableEq, Repr

/-- Row-level semantics of `compute_final_sentiment` (both HF columns
present): `hf_score` is coerced to numeric with `NaN -> 0.0`, the output
starts as the VADER label (`NaN -> ""`), rows whose HF score meets the
threshold take the HF label (keeping the VADER label if the HF label is
`NaN`), and the result is normalized to the three canonical labels. -/
def compute_final_sentiment_row (threshold : ℚ) (r : SentimentRow) : String :=
  let score := r.hf_score.getD 0
  let base := r.vader_label.getD ""
  let merged := if threshold ≤ score then r.hf_label.getD base else base
  normalizeLabel merged

/-- Python `compute_final_sentiment` over the whole frame (the pandas mask
assignment is row-wise). -/
def compute_final_sentiment (threshold : ℚ) (rows : List SentimentRow) : List String :=
  rows.map (compute_final_sentiment_row threshold)

/-- Sign agreement of a `(label, score)` pair on the positive/negative
side of the convention. -/
def signAgrees (p : String × ℚ) : Prop :=
  (p.1 = "positive" → 0 ≤ p.2) ∧ (p.1 = "negative" → p.2 ≤ 0)

/-! ### `nlp/sentiment.py`: the VADER lexicon engine -/

/-- Python `get_sentiment_score`: the VADER compound score of the text is the
oracle argument `compound`; empty or non-string text short-circuits to
`("neutral", 0.0)`; otherwise the label comes from the `±0.05` thresholds
and the score is the compound itself. -/
def get_sentiment_score (text : Option String) (compound : ℚ) : String × ℚ :=
  match text with
  | none => ("neutral", 0)
  | some t =>
    if t = "" then ("neutral", 0)
    else if 1/20 ≤ compound then ("positive", compound)
    else if compound ≤ -(1/20) then ("negative", compound)
    else ("neutral", compound)

/-! ### `nlp/sentiment_bert.py`: batched model engine and parallel scatter -/

/-- Python `t[:512]`. -/
def truncate512 (s : String) : String := String.mk (s.data.take 512)

/-- Per-result postprocessing inside `get_sentiment_score_batch`:
lowercase the label and sign the probability (`positive -> +score`,
`negative -> -score`, anything else forces `0.0`). -/
def postLabelScore (r : String × ℚ) : String × ℚ :=
  let label := pyLower r.1
  (label, if label = "positive" then r.2 else if label = "negative" then -r.2 else 0)

/-- Python `get_sentiment_score_batch`: texts are made safe (`[:512]`,
non-strings to `""`), the model oracle is called on the whole batch
(`none` models a raised exception, recovered by substituting
`{"label": "neutral", "score": 0.0}` for every member and logging one
warning, returned here as the `Bool` flag), then every raw result is
postprocessed. -/
def get_sentiment_score_batch (texts : List (Option String))
    (modelOut : Option (List (String × ℚ))) : List (String × ℚ) × Bool :=
  let safe := texts.map (fun t => match t with | some s => truncate512 s | none => "")
  let results := match modelOut with
    | some r => r
    | none => safe.map (fun _ => ("neutral", (0 : ℚ)))
  (results.map postLabelScore, modelOut.isNone)

/-- Python `ceil(len(texts) / batch_size)`. -/
def nBatches (n bs : Nat) : Nat := (n + bs - 1) / bs

/-- Python `texts[i*batch_size:(i+1)*batch_size]`. -/
def batchOf (texts : List α) (bs i : Nat) : List α := (texts.drop (i * bs)).take bs

/-- Python slice assignment `res[start:start+len(vals)] = vals`. -/
def writeSlice (res : List β) (start : Nat) (vals : List β) : List β :=
  res.take start ++ vals ++ res.drop (start + vals.length)

/-- The scatter loop of `annotate_dataframe_parallel`: the output array
starts as `[None] * n` and each completed batch `i` (completion order is
the list `order`) writes its results back to the slice starting at
`i * batch_size`. -/
def scatterRun (n bs : Nat) (sB : Nat → List β) (order : List Nat) : List (Option β) :=
  order.foldl (fun res i => writeSlice res (i * bs) ((sB i).map some)) (List.replicate n none)

/-- Python `annotate_dataframe_parallel` with a per-record scoring function:
batches are cut from the input, scored, and scattered back by batch
index in an arbitrary completion order `order`. -/
def annotate_dataframe_parallel (texts : List α) (score : α → β) (bs : Nat)
    (order : List Nat) : List (Option β) :=
  scatterRun texts.length bs (fun i => (batchOf texts bs i).map score) order

/-- Python `annotate_dataframe_parallel` with the real per-batch engine: batch
`i`'s oracle call result is `model i` (`none` = the engine raised inside
`get_sentiment_score_batch`). -/
def annotate_with_model (texts : List (Option String))
    (model : Nat → Option (List (String × ℚ))) (bs : Nat)
    (order : List Nat) : List (Option (String × ℚ)) :=
  scatterRun texts.length bs
    (fun i => (get_sentiment_score_batch (batchOf texts bs i) (model i)).1) order

/-! ### `nlp/themes.py`: normalizer, rule compiler, theme assigner -/

/-- Fallback stopword set of `themes.py` (used when the NLTK corpus is
unavailable; idempotence of the normalizer does not depend on the set). -/
def STOP : List String :=
  ["the", "and", "a", "an", "is", "it", "this", "that", "to",
   "for", "in", "on", "of", "with", "at", "as"]

/-- Head test for one position of the regex scan of `http\S+`:
the next four characters are `http` and a non-space character follows. -/
def hasHttpAt (l : List Char) : Bool :=
  decide (l.take 4 = ['h', 't', 't', 'p']) && !pyIsSpace ((l.drop 4).headD ' ')

/-- Whether `re.search(r"http\S+", s)` would find a match anywhere. -/
def hasHttpMatch : List Char → Bool
  | [] => false
  | c :: cs => hasHttpAt (c :: cs) || hasHttpMatch cs

/-- Python `re.sub(r"http\S+", " ", s)`: left-to-right scan; at a match the
greedy `\S+` run is consumed and replaced (with `http`) by one space. -/
def subHttp : List Char → List Char
  | [] => []
  | c :: cs =>
    if hasHttpAt (c :: cs) then
      ' ' :: subHttp (((c :: cs).drop 4).dropWhile (fun x => !pyIsSpace x))
    else c :: subHttp cs
termination_by l => l.length
decreasing_by
  · simp only [List.length_cons]
    have h1 : (((c :: cs).drop 4).dropWhile (fun x => !pyIsSpace x)).length ≤
        ((c :: cs).drop 4).length := (List.dropWhile_suffix _).length_le
    have h2 : ((c :: cs).drop 4).length = (c :: cs).length - 4 := by
      simp [List.length_drop]
    simp only [List.length_cons] at h2
    omega
  · simp only [List.length_cons]; omega

/-- Python `re.sub(r"[\r\n\t]+", " ", s)`: each maximal run of `[\r\n\t]`
becomes a single space. -/
def subCrlf : List Char → List Char
  | [] => []
  | c :: cs =>
    if isCrlfTab c then ' ' :: subCrlf (cs.dropWhile isCrlfTab)
    else c :: subCrlf cs
termination_by l => l.length
decreasing_by
  · simp only [List.length_cons]
    have h1 : (cs.dropWhile isCrlfTab).length ≤ cs.length :=
      (List.dropWhile_suffix _).length_le
    omega
  · simp only [List.length_cons]; omega

/-- Python `re.sub(r"[^a-z0-9\s]", " ", s)`: a single-character class, hence a
character-wise map. -/
def punctToSpace (l : List Char) : List Char :=
  l.map (fun c => if isLowerAlnum c || pyIsSpace c then c else ' ')

/-- The token filter of `preprocess_text`:
`[w for w in s.split() if w not in STOP and len(w) > 2]`. -/
def tokenKeep (t : List Char) : Bool :=
  !(STOP.contains (String.mk t)) && decide (2 < t.length)

/-- Python `preprocess_text` of `themes.py` (lemmatizer absent, the
`LEMMATIZER = None` branch): lowercase, strip URLs, collapse `[\r\n\t]`
runs, strip punctuation, drop stopwords and short tokens, re-join.
Non-string input (`none`) maps to the empty string. -/
def preprocess_text (x : Option String) : String :=
  match x with
  | none => ""
  | some s =>
    let l1 := lowerChars s.data
    let l2 := subHttp l1
    let l3 := subCrlf l2
    let l4 := punctToSpace l3
    let toks := (pySplit l4).filter tokenKeep
    String.mk (joinSpace toks)

/-- Python `compile_keyword_patterns`: per theme, each keyword is stripped,
empty ones are skipped, and the rest become whole-word case-insensitive
matchers (after `re.escape` the compilation never fails, so the
`re.error` branch is dead).  Declaration order of the rule set is the
order of the association list. -/
def compile_keyword_patterns (theme_map : List (String × List String)) :
    List (String × List String) :=
  theme_map.map (fun p =>
    (p.1, p.2.filterMap (fun kw =>
      let k := String.mk (trimChars kw.data)
      if k = "" then none else some k)))

/-- Python `rule_assign_themes`: falsy text (missing or empty) yields `[]`;
otherwise the compiled map is traversed in declaration order and a theme
name is appended once if any of its patterns hits the text. -/
def rule_assign_themes (text : Option String)
    (compiled : List (String × List String)) : List String :=
  match text with
  | none => []
  | some t =>
    if t = "" then []
    else compiled.foldl
      (fun matched p =>
        if p.2.any (fun kw => wholeWordMatch kw t) then matched ++ [p.1] else matched)
      []

/-- The primary theme of `main` in `themes.py`:
`matched[0] if matched else None`. -/
def theme_primary (matched : List String) : Option String := matched.head?

/-! ### `utils/text_utils.py`: `clean_text` -/

/-- Match length at the head of the list for the alternation
`<[^<]+?>|https?://\S+|www\.\S+|@\w+|#\w+` (Python `re` tries the
alternatives left to right), or `none` when no alternative matches here. -/
def cleanMatchLen (l : List Char) : Option Nat :=
  match l with
  | [] => none
  | c :: cs =>
    if c == '<' then
      -- lazy `[^<]+?` then `>`: at least one character that is neither
      -- `<` nor `>`, then the first `>`
      let pre := cs.takeWhile (fun x => !(x == '<') && !(x == '>'))
      if pre.length ≥ 1 && ((cs.drop pre.length).headD ' ' == '>') then
        some (1 + pre.length + 1)
      else none
    else if (c :: cs).take 8 = ['h', 't', 't', 'p', 's', ':', '/', '/'] &&
        !pyIsSpace (((c :: cs).drop 8).headD ' ') then
      -- the `https://` branch, nonempty `\S+`
      some (8 + (((c :: cs).drop 8).takeWhile (fun x => !pyIsSpace x)).length)
    else if (c :: cs).take 7 = ['h', 't', 't', 'p', ':', '/', '/'] &&
        !pyIsSpace (((c :: cs).drop 7).headD ' ') then
      -- the `http://` branch
      some (7 + (((c :: cs).drop 7).takeWhile (fun x => !pyIsSpace x)).length)
    else if (c :: cs).take 4 = ['w', 'w', 'w', '.'] &&
        !pyIsSpace (((c :: cs).drop 4).headD ' ') then
      some (4 + (((c :: cs).drop 4).takeWhile (fun x => !pyIsSpace x)).length)
    else if c == '@' && (isWordChar (cs.headD ' ')) then
      some (1 + (cs.takeWhile isWordChar).length)
    else if c == '#' && (isWordChar (cs.headD ' ')) then
      some (1 + (cs.takeWhile isWordChar).length)
    else none
where
  /-- Python `\w` (ASCII range). -/
  isWordChar (c : Char) : Bool :=
    (decide ('a' ≤ c) && decide (c ≤ 'z')) || (decide ('A' ≤ c) && decide (c ≤ 'Z')) ||
    (decide ('0' ≤ c) && decide (c ≤ '9')) || c == '_'

/-- Fuel-driven scan of `re.sub(pattern, '', s)` for the alternation of
`clean_text`: a match is deleted (replaced by the empty string) and the
scan resumes after it; otherwise one character is kept.  `fuel` bounds
the number of steps (the callers pass the list length, which suffices
because a match always consumes at least one character). -/
def cleanSubAux : Nat → List Char → List Char
  | 0, l => l
  | _ + 1, [] => []
  | fuel + 1, c :: cs =>
    match cleanMatchLen (c :: cs) with
    | some k => cleanSubAux fuel ((c :: cs).drop k)
    | none => c :: cleanSubAux fuel cs

/-- Python `re.sub(r'<[^<]+?>|https?://\S+|www\.\S+|@\w+|#\w+', '', s)`. -/
def cleanSub (l : List Char) : List Char := cleanSubAux l.length l

/-- Python `re.sub(r'\s+', ' ', s)`: each maximal whitespace run becomes one
space (the flag records being inside a run). -/
def collapseWsAux : List Char → Bool → List Char
  | [], _ => []
  | c :: cs, inRun =>
    if pyIsSpace c then
      if inRun then collapseWsAux cs true else ' ' :: collapseWsAux cs true
    else c :: collapseWsAux cs false

/-- Python `re.sub(r'\s+', ' ', s)`. -/
def collapseWs (l : List Char) : List Char := collapseWsAux l false

/-- Python `clean_text` of `utils/text_utils.py`: `NaN`/`None` maps to `""`,
otherwise lowercase, delete HTML tags / links / mentions / hashtags,
collapse whitespace and strip. -/
def clean_text (x : Option String) : String :=
  match x with
  | none => ""
  | some s =>
    String.mk (trimChars (collapseWs (cleanSub (lowerChars s.data))))

/-! ### `nlp/keywords.py`: TF-IDF extraction and keyword tagging -/

/-- The sort key `lambda t: (-(" " in t), len(t))`: multi-word terms rank
0, single-word terms rank 1. -/
def multiwordRank (t : String) : Nat := if t.data.contains ' ' then 0 else 1

/-- Strict lexicographic comparison of the Python sort keys. -/
def candKeyLt (a b : String) : Bool :=
  decide (multiwordRank a < multiwordRank b) ||
    (multiwordRank a == multiwordRank b && decide (a.length < b.length))

/-- Python `sorted(global_tfidf, key=lambda t: (-(" " in t), len(t)))`. -/
def sortCandidates (cands : List String) : List String :=
  sortStable candKeyLt cands

/-- The scan loop of `_find_keywords`: candidates in priority order; a
matching candidate is appended; the loop breaks as soon as `top_k`
matches have accumulated (`found` is kept reversed). -/
def findKeywordsAux (tw : List (List Char)) (top_k : Nat) :
    List String → List String → List String
  | [], found => found.reverse
  | t :: rest, found =>
    let found2 := if infixWords (wordsOf (pyLower t)) tw then t :: found else found
    if top_k ≤ found2.length then found2.reverse
    else findKeywordsAux tw top_k rest found2

/-- The keyword list a row's text receives: the scan loop started with an
empty accumulator. -/
def find_keywords_list (cand_patterns : List String) (top_k : Nat) (text : String) :
    List String :=
  findKeywordsAux (wordsOf (pyLower text)) top_k cand_patterns []

/-- Python `_find_keywords` (lemmatizer absent, the `LEMMATIZER = None` branch):
blank or non-string text yields `""`; otherwise the lowercased text is
scanned against the sorted candidates and the matches are joined with the
separator. -/
def find_keywords (cand_patterns : List String) (top_k : Nat) (separator : String)
    (text : Option String) : String :=
  match text with
  | none => ""
  | some t =>
    if trimChars t.data = [] then ""
    else joinWith separator (find_keywords_list cand_patterns top_k t)

/-- Non-strict order on the candidate sort keys (the sortedness the
amended C3 asserts): multi-word before single-word, ascending length
within each class. -/
def keyOrderLe (a b : String) : Prop :=
  multiwordRank a < multiwordRank b ∨
    (multiwordRank a = multiwordRank b ∧ a.length ≤ b.length)

/-- A data frame column; cells may be missing. -/
abbrev Col := List (Option String)

/-- Column-major data frame. -/
structure DataFrame where
  cols : List (String × Col)
deriving DecidableEq, Repr

/-- First column of a given name (pandas column lookup). -/
def DataFrame.getCol (df : DataFrame) (name : String) : Option Col :=
  (df.cols.find? (fun c => c.1 = name)).map Prod.snd

/-- Number of rows (length of the first column; `0` for a frame with no
columns). -/
def DataFrame.nRows (df : DataFrame) : Nat :=
  match df.cols with
  | [] => 0
  | c :: _ => c.2.length

/-- Pandas column assignment `df[name] = vals`: replaces the column in
place when it exists, otherwise appends it on the right. -/
def DataFrame.setCol (df : DataFrame) (name : String) (v : Col) : DataFrame :=
  if df.cols.any (fun c => c.1 = name) then
    ⟨df.cols.map (fun c => if c.1 = name then (c.1, v) else c)⟩
  else ⟨df.cols ++ [(name, v)]⟩

/-- Python `attach_top_keywords_to_df`: operates on a copy (functional update);
without candidates every row's `keywords` is `""`; otherwise candidates
are sorted (multi-word first, then by ascending length) and each row of
the text column (missing cells filled with `""`) is scanned.  A missing
text column raises `KeyError`. -/
def attach_top_keywords_to_df (df : DataFrame) (text_col : String)
    (global_tfidf : Option (List String)) (top_k : Nat) (separator : String) :
    Except String DataFrame :=
  match global_tfidf with
  | none => .ok (df.setCol "keywords" (List.replicate df.nRows (some "")))
  | some cands =>
    let cand_patterns := sortCandidates cands
    match df.getCol text_col with
    | none => .error "KeyError"
    | some tc => .ok (df.setCol "keywords"
        (tc.map (fun cell =>
          some (find_keywords cand_patterns top_k separator (some (cell.getD ""))))))

/-- Ascending `numpy` argsort of the mean TF-IDF weights (ties resolved
by the stable model; `numpy`'s default leaves tie order unspecified). -/
def argsortAsc (vals : List ℚ) : List Nat :=
  sortStable (fun i j => decide (vals.getD i 0 < vals.getD j 0)) (List.range vals.length)

/-- The per-group body of `extract_tfidf_keywords_per_group`: empty
document lists yield `[]`; a raising vectorizer call (`Except.error`,
e.g. empty vocabulary) yields `[]`; otherwise the features are ranked by
mean weight descending (`argsort()[::-1]`) and the first `top_n` are
returned.  The oracle returns the fitted `(feature, mean weight)` pairs. -/
def extract_group (oracle : List String → Except String (List (String × ℚ)))
    (top_n : Nat) (docs : List String) : List String :=
  if docs = [] then []
  else
    match oracle docs with
    | .error _ => []
    | .ok feats =>
      let order := (argsortAsc (feats.map Prod.snd)).reverse
      (order.take top_n).filterMap (fun i => (feats.map Prod.fst)[i]?)

/-- Python `extract_tfidf_keywords_per_group`: rows are `(group, text)` pairs;
`groupby` iterates the distinct group keys in sorted order; each group's
documents are its texts with missing values filled by `""`. -/
def extract_tfidf_keywords_per_group (rows : List (String × Option String))
    (oracle : List String → Except String (List (String × ℚ)))
    (top_n : Nat) : List (String × List String) :=
  let keys := sortStable (fun a b => decide (a < b)) (rows.map Prod.fst).dedup
  keys.map (fun g =>
    (g, extract_group oracle top_n
      ((rows.filter (fun r => r.1 = g)).map (fun r => r.2.getD ""))))

/-! ### `analysis/insight.py`: `theme_share_plot` -/

/-- The exploded theme occurrences of one group: each row's theme cell is
filled (`NaN -> ""`), split on `|`, exploded, and empty entries are
dropped (`cnts = cnts[cnts.index != ""]`). -/
def explodeThemes (vals : List (Option String)) : List String :=
  ((vals.map (fun v => splitBar (v.getD ""))).flatten).filter (fun t => t ≠ "")

/-- Python `pct` of one theme in one group, as computed by `theme_share_plot`:
`100.0 * cnts / cnts.sum()` — the denominator is the total number of
(nonempty) theme occurrences of the group. -/
def share_pct (vals : List (Option String)) (t : String) : ℚ :=
  100 * ((explodeThemes vals).count t : ℚ) / ((explodeThemes vals).length : ℚ)

/-- The share the claim describes (a second definition, following the
spec's words, for comparison): the theme's row count divided by the
group's total row count, times 100. -/
def share_pct_claimed (vals : List (Option String)) (t : String) : ℚ :=
  100 * (((vals.filter (fun v => (splitBar (v.getD "")).contains t)).length : ℚ)) /
    (vals.length : ℚ)

/-- The shape of a token of a normalized text: nonempty, all characters
in `[a-z0-9]`, surviving the stopword/length filter, and containing no
`http` followed by a further character. -/
def goodTok (t : List Char) : Prop :=
  t ≠ [] ∧ (∀ c ∈ t, isLowerAlnum c = true) ∧ tokenKeep t = true ∧ hasHttpMatch t = false

/-! ### Concrete inputs for witness instantiations -/

/-- A concrete vectorizer oracle: raises on single-document groups,
otherwise returns a fixed fitted vocabulary. -/
def oracleW : List String → Except String (List (String × ℚ)) :=
  fun docs => if docs.length = 1 then .error "empty vocabulary"
    else .ok [("good", 1/2), ("bad", 3/4), ("meh", 1/10)]

/-- A concrete grouped frame: two groups, one with a missing text. -/
def rowsW : List (String × Option String) :=
  [("B", some "t1"), ("A", some "t2"), ("B", none)]

/-- A concrete frame of three texts for the scatter witnesses. -/
def textsW : List (Option String) := [some "x", some "y", some "z"]

/-- A concrete per-batch model oracle that raises on batch `0`. -/
def modelW : Nat → Option (List (String × ℚ)) :=
  fun i => if i = 0 then none else some [("POSITIVE", 97/100)]

/-! ## Helper lemmas about the stable sort -/

theorem insertStable_perm (lt : α → α → Bool) (x : α) (l : List α) :
    (insertStable lt x l).Perm (x :: l) := by
  induction l with
  | nil => exact List.Perm.refl _
  | cons y ys ih =>
    simp only [insertStable]
    by_cases h : lt y x
    · simp only [h, if_true]
      exact (ih.cons y).trans (List.Perm.swap x y ys)
    · simp [h]

theorem sortStable_perm (lt : α → α → Bool) (l : List α) :
    (sortStable lt l).Perm l := by
  induction l with
  | nil => exact List.Perm.refl _
  | cons x xs ih =>
    simp only [sortStable, List.foldr_cons]
    exact (insertStable_perm lt x _).trans (ih.cons x)

theorem insertStable_pairwise (lt : α → α → Bool)
    (hasym : ∀ a b, lt a b = true → lt b a = false)
    (htrans : ∀ a b c, lt b a = false → lt c b = false → lt c a = false)
    (x : α) (l : List α) (hl : l.Pairwise (fun a b => lt b a = false)) :
    (insertStable lt x l).Pairwise (fun a b => lt b a = false) := by
  induction l with
  | nil => simp [insertStable]
  | cons y ys ih =>
    rcases List.pairwise_cons.mp hl with ⟨hy, hys⟩
    simp only [insertStable]
    by_cases h : lt y x
    · simp only [h, if_true]
      refine List.pairwise_cons.mpr ⟨?_, ih hys⟩
      intro z hz
      have hz' : z ∈ x :: ys := (insertStable_perm lt x ys).mem_iff.mp hz
      rcases List.mem_cons.mp hz' with rfl | hz''
      · exact hasym y z h
      · exact hy z hz''
    · simp only [h, if_false]
      refine List.pairwise_cons.mpr ⟨?_, hl⟩
      intro z hz
      have hyx : lt y x = false := Bool.eq_false_iff.mpr h
      rcases List.mem_cons.mp hz with rfl | hz'
      · exact hyx
      · exact htrans x y z hyx (hy z hz')

theorem sortStable_pairwise (lt : α → α → Bool)
    (hasym : ∀ a b, lt a b = true → lt b a = false)
    (htrans : ∀ a b c, lt b a = false → lt c b = false → lt c a = false)
    (l : List α) :
    (sortStable lt l).Pairwise (fun a b => lt b a = false) := by
  induction l with
  | nil => simp [sortStable]
  | cons x xs ih =>
    simp only [sortStable, List.foldr_cons]
    exact insertStable_pairwise lt hasym htrans x _ ih

theorem candKeyLt_iff (a b : String) :
    candKeyLt a b = true ↔
      (multiwordRank a < multiwordRank b ∨
        (multiwordRank a = multiwordRank b ∧ a.length < b.length)) := by
  simp [candKeyLt]

theorem candKeyLt_asymm (a b : String) :
    candKeyLt a b = true → candKeyLt b a = false := by
  intro h
  cases hba : candKeyLt b a with
  | false => rfl
  | true =>
    exfalso
    rw [candKeyLt_iff] at h hba
    omega

theorem candKeyLt_negtrans (a b c : String) :
    candKeyLt b a = false → candKeyLt c b = false → candKeyLt c a = false := by
  intro h1 h2
  cases hca : candKeyLt c a with
  | false => rfl
  | true =>
    exfalso
    have h1' : ¬ (candKeyLt b a = true) := by simp [h1]
    have h2' : ¬ (candKeyLt c b = true) := by simp [h2]
    rw [candKeyLt_iff] at hca h1' h2'
    omega

theorem sortCandidates_pairwise (cands : List String) :
    List.Pairwise keyOrderLe (sortCandidates cands) := by
  have h := sortStable_pairwise candKeyLt candKeyLt_asymm candKeyLt_negtrans cands
  refine h.imp ?_
  intro a b hab
  have : ¬ (candKeyLt b a = true) := by simp [hab]
  rw [candKeyLt_iff] at this
  unfold keyOrderLe
  omega

theorem findKeywordsAux_cons_eq (tw : List (List Char)) (k : Nat) (t : String)
    (rest found found2 : List String)
    (hf : found2 = if infixWords (wordsOf (pyLower t)) tw then t :: found else found) :
    findKeywordsAux tw k (t :: rest) found =
      if k ≤ found2.length then found2.reverse else findKeywordsAux tw k rest found2 := by
  subst hf; rfl

theorem findKeywordsAux_length (tw : List (List Char)) (k : Nat) :
    ∀ (pats : List String) (found : List String), found.length < k →
      (findKeywordsAux tw k pats found).length ≤ k := by
  intro pats
  induction pats with
  | nil =>
    intro found h
    simpa [findKeywordsAux] using Nat.le_of_lt h
  | cons t rest ih =>
    intro found h
    by_cases hm : infixWords (wordsOf (pyLower t)) tw
    · rw [findKeywordsAux_cons_eq tw k t rest found (t :: found) (by rw [if_pos hm])]
      split_ifs with hk
      · simp only [List.length_reverse, List.length_cons]
        omega
      · exact ih (t :: found) (by simp only [List.length_cons] at hk ⊢; omega)
    · rw [findKeywordsAux_cons_eq tw k t rest found found (by rw [if_neg hm])]
      split_ifs with hk
      · simp only [List.length_reverse]
        omega
      · exact ih found h

theorem findKeywordsAux_nomatch (tw : List (List Char)) (k : Nat) :
    ∀ pats : List String,
      (∀ t ∈ pats, infixWords (wordsOf (pyLower t)) tw = false) →
      findKeywordsAux tw k pats [] = [] := by
  intro pats
  induction pats with
  | nil => intro _; simp [findKeywordsAux]
  | cons t rest ih =>
    intro h
    have hm : ¬ (infixWords (wordsOf (pyLower t)) tw = true) := by
      simp [h t (List.mem_cons_self t rest)]
    rw [findKeywordsAux_cons_eq tw k t rest [] [] (by rw [if_neg hm])]
    split_ifs with hk
    · simp
    · exact ih (fun t' ht' => h t' (List.mem_cons_of_mem t ht'))

/-! ## Claim C1 -/

theorem normalizeLabel_mem (s : String) : normalizeLabel s ∈ canonicalLabels := by
  unfold normalizeLabel canonicalLabels
  by_cases h : s = "positive" || s = "negative" || s = "neutral"
  · simp only [h, if_true]
    rcases Bool.or_eq_true_iff.mp h with h' | h'
    · rcases Bool.or_eq_true_iff.mp h' with h'' | h''
      · simp [decide_eq_true_eq.mp h'']
      · simp [decide_eq_true_eq.mp h'']
    · simp [decide_eq_true_eq.mp h']
  · simp [h]

/-- C1: with both engines present on a row, the merged label is the
(normalized) model label when the model confidence meets the threshold and
the (normalized) lexicon label otherwise, and it is always one of the
three canonical labels (unrecognized strings collapse to `"neutral"`). -/
theorem C1_merge_rule (threshold : ℚ) (l v : String) (q : ℚ) :
    compute_final_sentiment_row threshold ⟨some l, some q, some v⟩ =
      (if threshold ≤ q then normalizeLabel l else normalizeLabel v) ∧
    compute_final_sentiment_row threshold ⟨some l, some q, some v⟩ ∈ canonicalLabels := by
  constructor
  · by_cases h : threshold ≤ q <;> simp [compute_final_sentiment_row, h]
  · exact normalizeLabel_mem _

/-! ## Claim C3 -/

/-- C3 counterexample: with the single-word candidates `"ab"` and
`"abcd"`, the code's ordering puts the shorter term first and a scan of
text containing both with `top_k = 1` tags the shorter term `"ab"` — the
claimed longest-first priority would tag `"abcd"`. -/
theorem C3_counterexample :
    sortCandidates ["ab", "abcd"] = ["ab", "abcd"] ∧
    find_keywords (sortCandidates ["ab", "abcd"]) 1 "|" (some "ab abcd") = "ab" := by
  constructor <;> rfl

/-- C3 (amended): candidates are ordered multi-word before single-word
and by ascending length within each class (the code's Python sort key
`(-(" " in t), len(t))`); the ordering is a permutation of the
candidates; a row receives at most `top_k` keywords when `top_k ≥ 1`;
and a row matching no candidate receives the empty keyword field. -/
theorem C3_keyword_tagging (cands : List String) (text : String) (top_k : Nat)
    (sep : String) (htk : 1 ≤ top_k) :
    List.Pairwise keyOrderLe (sortCandidates cands) ∧
    (sortCandidates cands).Perm cands ∧
    (find_keywords_list (sortCandidates cands) top_k text).length ≤ top_k ∧
    ((∀ t ∈ sortCandidates cands,
        infixWords (wordsOf (pyLower t)) (wordsOf (pyLower text)) = false) →
      find_keywords (sortCandidates cands) top_k sep (some text) = "") := by
  refine ⟨sortCandidates_pairwise cands, sortStable_perm _ cands, ?_, ?_⟩
  · exact findKeywordsAux_length _ top_k _ [] (by simpa using htk)
  · intro hnone
    rw [show find_keywords (sortCandidates cands) top_k sep (some text) =
        if trimChars text.data = [] then ""
        else joinWith sep (find_keywords_list (sortCandidates cands) top_k text) from rfl]
    split_ifs with ht
    · rfl
    · rw [find_keywords_list, findKeywordsAux_nomatch _ _ _ hnone]
      rfl

/-- C3 witness: the amended statement applied at a concrete input. -/
theorem C3_keyword_tagging_witness :
    1 ≤ 2 ∧
    (List.Pairwise keyOrderLe (sortCandidates ["login error", "crash"]) ∧
     (sortCandidates ["login error", "crash"]).Perm ["login error", "crash"] ∧
     (find_keywords_list (sortCandidates ["login error", "crash"]) 2 "app crash").length ≤ 2 ∧
     ((∀ t ∈ sortCandidates ["login error", "crash"],
         infixWords (wordsOf (pyLower t)) (wordsOf (pyLower "app crash")) = false) →
       find_keywords (sortCandidates ["login error", "crash"]) 2 "|" (some "app crash") = "")) :=
  ⟨by decide, C3_keyword_tagging ["login error", "crash"] "app crash" 2 "|" (by decide)⟩

/-! ## Claim C4 -/

/-- C4 counterexample: a group of two rows, one themed `"a"` and one
unthemed; the code's `pct` for `"a"` is `100` (the denominator is the
count of nonempty theme occurrences), while the claimed row-count share
is `50`. -/
theorem C4_counterexample :
    share_pct [some "a", some ""] "a" = 100 ∧
    share_pct_claimed [some "a", some ""] "a" = 50 := by
  have he : explodeThemes [some "a", some ""] = ["a"] := by decide
  have hc : (["a"] : List String).count "a" = 1 := by decide
  have hf : ([some "a", some ""] : List (Option String)).filter
      (fun v => (splitBar (v.getD "")).contains "a") = [some "a"] := by decide
  constructor
  · show 100 * ((explodeThemes [some "a", some ""]).count "a" : ℚ) /
        ((explodeThemes [some "a", some ""]).length : ℚ) = 100
    rw [he, hc]
    norm_num
  · show 100 * ((([some "a", some ""] : List (Option String)).filter
        (fun v => (splitBar (v.getD "")).contains "a")).length : ℚ) /
        (([some "a", some ""] : List (Option String)).length : ℚ) = 50
    rw [hf]
    norm_num

/-- C4 (amended): `pct` of a theme is its occurrence count over the
group's total count of nonempty theme occurrences, times 100; hence over
the distinct themes of a group with at least one occurrence the values
always sum to exactly 100 — in particular for a single-label partition. -/
theorem C4_share_sums (vals : List (Option String)) (h : explodeThemes vals ≠ []) :
    ∑ t ∈ (explodeThemes vals).toFinset, share_pct vals t = 100 := by
  have hlen : ((explodeThemes vals).length : ℚ) ≠ 0 := by
    have h1 : (explodeThemes vals).length ≠ 0 := by
      simpa [List.length_eq_zero] using h
    exact_mod_cast h1
  have key : ∑ t ∈ (explodeThemes vals).toFinset,
      ((explodeThemes vals).count t : ℚ) = ((explodeThemes vals).length : ℚ) := by
    have h0 : ∑ t ∈ (explodeThemes vals).toFinset,
        (explodeThemes vals).count t = (explodeThemes vals).length := by
      have hms := Multiset.toFinset_sum_count_eq (↑(explodeThemes vals) : Multiset String)
      simp only [Multiset.coe_count, Multiset.coe_card] at hms
      exact hms
    exact_mod_cast h0
  unfold share_pct
  rw [← Finset.sum_div, ← Finset.mul_sum, key]
  field_simp

/-- C4 witness: the amended statement applied at a concrete group. -/
theorem C4_share_sums_witness :
    explodeThemes [some "a", some "a|b"] ≠ [] ∧
    ∑ t ∈ (explodeThemes [some "a", some "a|b"]).toFinset,
        share_pct [some "a", some "a|b"] t = 100 :=
  ⟨by decide, C4_share_sums [some "a", some "a|b"] (by decide)⟩

/-! ## Claim C7 -/

theorem str_pair_fst_ne (a b : String) (x : ℚ) (h : a ≠ b) : ¬ ((a, x).1 = b) := h

theorem get_sentiment_score_cases (text : Option String) (compound : ℚ) :
    get_sentiment_score text compound = ("neutral", 0) ∨
    (get_sentiment_score text compound = ("positive", compound) ∧ 1/20 ≤ compound) ∨
    (get_sentiment_score text compound = ("negative", compound) ∧ compound ≤ -(1/20)) ∨
    (get_sentiment_score text compound = ("neutral", compound) ∧
      -(1/20) < compound ∧ compound < 1/20) := by
  rcases text with _ | t
  · left; rfl
  · rw [show get_sentiment_score (some t) compound =
        (if t = "" then (("neutral" : String), (0 : ℚ))
         else if 1/20 ≤ compound then ("positive", compound)
         else if compound ≤ -(1/20) then ("negative", compound)
         else ("neutral", compound)) from rfl]
    split_ifs with h0 hp hn
    · left; rfl
    · right; left; exact ⟨rfl, hp⟩
    · right; right; left; exact ⟨rfl, hn⟩
    · right; right; right
      exact ⟨rfl, by push_neg at hn; linarith, by push_neg at hp; linarith⟩

theorem postLabelScore_cases (lab : String) (s : ℚ) :
    (postLabelScore (lab, s) = (pyLower lab, s) ∧ pyLower lab = "positive") ∨
    (postLabelScore (lab, s) = (pyLower lab, -s) ∧ pyLower lab = "negative") ∨
    (postLabelScore (lab, s) = (pyLower lab, 0) ∧
      pyLower lab ≠ "positive" ∧ pyLower lab ≠ "negative") := by
  rw [show postLabelScore (lab, s) =
      (pyLower lab, if pyLower lab = "positive" then s
        else if pyLower lab = "negative" then -s else 0) from rfl]
  split_ifs with hp hn
  · left; exact ⟨rfl, hp⟩
  · right; left; exact ⟨rfl, hn⟩
  · right; right; exact ⟨rfl, hp, hn⟩

/-- C7 counterexample: the lexicon engine labels a text with compound
score `0.03` as `"neutral"` but keeps the nonzero score, contradicting
the claimed `neutral ⇒ score == 0`. -/
theorem C7_counterexample :
    (get_sentiment_score (some "meh") (3/100)).1 = "neutral" ∧
    (get_sentiment_score (some "meh") (3/100)).2 ≠ 0 := by
  have h : get_sentiment_score (some "meh") (3/100) = ("neutral", 3/100) := by
    rw [show get_sentiment_score (some "meh") (3/100) =
        (if ("meh" : String) = "" then (("neutral" : String), (0 : ℚ))
         else if (1/20 : ℚ) ≤ 3/100 then ("positive", (3/100 : ℚ))
         else if (3/100 : ℚ) ≤ -(1/20) then ("negative", (3/100 : ℚ))
         else ("neutral", (3/100 : ℚ))) from rfl]
    rw [if_neg (by decide), if_neg (by norm_num), if_neg (by norm_num)]
  rw [h]
  exact ⟨rfl, by norm_num⟩

/-- C7 (amended): for the lexicon engine the sign convention holds on
the positive/negative side, and a neutral label implies only
`|score| < 0.05` (not `score = 0`); for the model engine the convention
holds exactly as claimed (given a nonnegative confidence), including
`neutral ⇒ score = 0`. -/
theorem C7_sign_convention (text : Option String) (compound : ℚ) (lab : String)
    (s : ℚ) (hs : 0 ≤ s) :
    signAgrees (get_sentiment_score text compound) ∧
    ((get_sentiment_score text compound).1 = "neutral" →
      -(1/20) < (get_sentiment_score text compound).2 ∧
        (get_sentiment_score text compound).2 < 1/20) ∧
    signAgrees (postLabelScore (lab, s)) ∧
    ((postLabelScore (lab, s)).1 = "neutral" → (postLabelScore (lab, s)).2 = 0) := by
  refine ⟨?_, ?_, ?_, ?_⟩
  · rcases get_sentiment_score_cases text compound with h | ⟨h, hc⟩ | ⟨h, hc⟩ | ⟨h, h1, h2⟩
    · unfold signAgrees
      rw [h]
      exact ⟨fun _ => by norm_num, fun _ => by norm_num⟩
    · unfold signAgrees
      rw [h]
      constructor
      · intro _; exact le_trans (by norm_num) hc
      · intro hlab; exact absurd hlab (str_pair_fst_ne _ _ _ (by decide))
    · unfold signAgrees
      rw [h]
      constructor
      · intro hlab; exact absurd hlab (str_pair_fst_ne _ _ _ (by decide))
      · intro _; exact le_trans hc (by norm_num)
    · unfold signAgrees
      rw [h]
      exact ⟨fun hlab => absurd hlab (str_pair_fst_ne _ _ _ (by decide)), fun hlab => absurd hlab (str_pair_fst_ne _ _ _ (by decide))⟩
  · rcases get_sentiment_score_cases text compound with h | ⟨h, hc⟩ | ⟨h, hc⟩ | ⟨h, h1, h2⟩
    · rw [h]; intro _; constructor <;> norm_num
    · rw [h]; intro hlab; exact absurd hlab (str_pair_fst_ne _ _ _ (by decide))
    · rw [h]; intro hlab; exact absurd hlab (str_pair_fst_ne _ _ _ (by decide))
    · rw [h]; intro _; exact ⟨h1, h2⟩
  · rcases postLabelScore_cases lab s with ⟨h, hc⟩ | ⟨h, hc⟩ | ⟨h, hc1, hc2⟩
    · unfold signAgrees
      rw [h]
      constructor
      · intro _; exact hs
      · intro hlab
        rw [hc] at hlab
        exact absurd hlab (str_pair_fst_ne _ _ _ (by decide))
    · unfold signAgrees
      rw [h]
      constructor
      · intro hlab
        rw [hc] at hlab
        exact absurd hlab (str_pair_fst_ne _ _ _ (by decide))
      · intro _; exact neg_nonpos.mpr hs
    · unfold signAgrees
      rw [h]
      exact ⟨fun _ => le_refl 0, fun _ => le_refl 0⟩
  · rcases postLabelScore_cases lab s with ⟨h, hc⟩ | ⟨h, hc⟩ | ⟨h, hc1, hc2⟩
    · rw [h]; intro hlab
      rw [hc] at hlab
      exact absurd hlab (str_pair_fst_ne _ _ _ (by decide))
    · rw [h]; intro hlab
      rw [hc] at hlab
      exact absurd hlab (str_pair_fst_ne _ _ _ (by decide))
    · rw [h]; intro _; rfl

/-- C7 witness: the amended statement applied at concrete engine outputs. -/
theorem C7_sign_convention_witness :
    (0 : ℚ) ≤ 97/100 ∧
    (signAgrees (get_sentiment_score (some "bad app") (-(6/10))) ∧
     ((get_sentiment_score (some "bad app") (-(6/10))).1 = "neutral" →
       -(1/20) < (get_sentiment_score (some "bad app") (-(6/10))).2 ∧
         (get_sentiment_score (some "bad app") (-(6/10))).2 < 1/20) ∧
     signAgrees (postLabelScore ("NEGATIVE", 97/100)) ∧
     ((postLabelScore ("NEGATIVE", 97/100)).1 = "neutral" →
       (postLabelScore ("NEGATIVE", 97/100)).2 = 0)) :=
  ⟨by norm_num, C7_sign_convention (some "bad app") (-(6/10)) "NEGATIVE" (97/100) (by norm_num)⟩

/-! ## Claim C8 -/

theorem extract_group_length_le (oracle : List String → Except String (List (String × ℚ)))
    (top_n : Nat) (docs : List String) :
    (extract_group oracle top_n docs).length ≤ top_n := by
  unfold extract_group
  split_ifs with hd
  · simp
  · cases h : oracle docs with
    | error e => simp
    | ok feats =>
      simp only
      calc ((((argsortAsc (feats.map Prod.snd)).reverse.take top_n)).filterMap
              (fun i => (feats.map Prod.fst)[i]?)).length
          ≤ ((argsortAsc (feats.map Prod.snd)).reverse.take top_n).length :=
            List.length_filterMap_le _ _
        _ ≤ top_n := by
            rw [List.length_take]
            omega

/-- C8: per-group TF-IDF extraction returns at most `top_n` terms for a
group, maps a group with zero documents to `[]`, maps a group whose
vectorizer call raises to `[]`, and returns one entry for every distinct
group key of the frame (no group aborts the extraction). -/
theorem C8_tfidf_per_group (rows : List (String × Option String))
    (oracle : List String → Except String (List (String × ℚ))) (top_n : Nat) :
    ((extract_tfidf_keywords_per_group rows oracle top_n).map Prod.fst =
      sortStable (fun a b => decide (a < b)) (rows.map Prod.fst).dedup) ∧
    (∀ g entry, (g, entry) ∈ extract_tfidf_keywords_per_group rows oracle top_n →
      entry.length ≤ top_n) ∧
    (extract_group oracle top_n [] = []) ∧
    (∀ docs e, oracle docs = .error e → extract_group oracle top_n docs = []) := by
  refine ⟨?_, ?_, ?_, ?_⟩
  · unfold extract_tfidf_keywords_per_group
    rw [List.map_map]
    exact List.map_id _
  · intro g entry hmem
    unfold extract_tfidf_keywords_per_group at hmem
    rcases List.mem_map.mp hmem with ⟨a, _, ha⟩
    have : entry = extract_group oracle top_n
        ((rows.filter (fun r => r.1 = a)).map (fun r => r.2.getD "")) := by
      have h2 := congrArg Prod.snd ha
      simpa using h2.symm
    rw [this]
    exact extract_group_length_le oracle top_n _
  · simp [extract_group]
  · intro docs e he
    unfold extract_group
    split_ifs with hd
    · rfl
    · rw [he]

/-- C8 witness: the statement applied at a concrete frame and oracle. -/
theorem C8_tfidf_per_group_witness :
    ((extract_tfidf_keywords_per_group rowsW oracleW 2).map Prod.fst =
      sortStable (fun a b => decide (a < b)) (rowsW.map Prod.fst).dedup) ∧
    (∀ g entry, (g, entry) ∈ extract_tfidf_keywords_per_group rowsW oracleW 2 →
      entry.length ≤ 2) ∧
    (extract_group oracleW 2 [] = []) ∧
    (∀ docs e, oracleW docs = .error e → extract_group oracleW 2 docs = []) :=
  C8_tfidf_per_group rowsW oracleW 2

/-! ## Claim C9 -/

theorem rule_assign_foldl (q : String × List String → Bool) :
    ∀ (l : List (String × List String)) (acc : List String),
      l.foldl (fun matched p => if q p then matched ++ [p.1] else matched) acc =
        acc ++ (l.filter q).map Prod.fst := by
  intro l
  induction l with
  | nil => intro acc; simp
  | cons p ps ih =>
    intro acc
    simp only [List.foldl_cons]
    by_cases hq : q p
    · rw [if_pos hq, ih, List.filter_cons_of_pos hq]
      simp
    · rw [if_neg hq, ih, List.filter_cons_of_neg hq]

/-- C9: theme assignment traverses the compiled rule set in declaration
order, appending a theme once when any of its matchers hits (so the
result is exactly the declaration-order filter of the matching themes,
and a theme name occurs no more often than it occurs in the rule set);
missing or empty text yields `[]`; the primary theme is the head of the
result. -/
theorem C9_rule_assign (tm : List (String × List String)) (text : String) (th : String) :
    (rule_assign_themes (some text) (compile_keyword_patterns tm) =
      if text = "" then []
      else ((compile_keyword_patterns tm).filter
        (fun p => p.2.any (fun kw => wholeWordMatch kw text))).map Prod.fst) ∧
    rule_assign_themes none (compile_keyword_patterns tm) = [] ∧
    rule_assign_themes (some "") (compile_keyword_patterns tm) = [] ∧
    ((rule_assign_themes (some text) (compile_keyword_patterns tm)).count th ≤
      ((compile_keyword_patterns tm).map Prod.fst).count th) ∧
    theme_primary (rule_assign_themes (some text) (compile_keyword_patterns tm)) =
      (rule_assign_themes (some text) (compile_keyword_patterns tm)).head? := by
  have hchar : rule_assign_themes (some text) (compile_keyword_patterns tm) =
      if text = "" then []
      else ((compile_keyword_patterns tm).filter
        (fun p => p.2.any (fun kw => wholeWordMatch kw text))).map Prod.fst := by
    rw [show rule_assign_themes (some text) (compile_keyword_patterns tm) =
        (if text = "" then []
         else (compile_keyword_patterns tm).foldl
           (fun matched p =>
             if p.2.any (fun kw => wholeWordMatch kw text) then matched ++ [p.1]
             else matched) []) from rfl]
    split_ifs with h0
    · rfl
    · rw [rule_assign_foldl]
      simp
  refine ⟨hchar, rfl, rfl, ?_, rfl⟩
  rw [hchar]
  split_ifs with h0
  · simp
  · exact List.Sublist.count_le (List.Sublist.map Prod.fst (List.filter_sublist _)) th

/-! ## Claim C10 -/

theorem find?_cons_pos' {α : Type} (p : α → Bool) (a : α) (l : List α)
    (h : p a = true) : List.find? p (a :: l) = some a :=
  List.find?_cons_of_pos l h

theorem find?_cons_neg' {α : Type} (p : α → Bool) (a : α) (l : List α)
    (h : p a = false) : List.find? p (a :: l) = List.find? p l :=
  List.find?_cons_of_neg l (by simp [h])

theorem find?_map_replace_other (l : List (String × Col)) (n m : String) (v : Col)
    (hm : m ≠ n) :
    (l.map (fun c => if c.1 = n then (c.1, v) else c)).find? (fun c => c.1 = m) =
      l.find? (fun c => c.1 = m) := by
  induction l with
  | nil => rfl
  | cons c cs ih =>
    simp only [List.map_cons]
    by_cases hc : c.1 = n
    · rw [if_pos hc]
      have h1 : (fun (c : String × Col) => decide (c.1 = m)) (c.1, v) = false := by
        simp only [decide_eq_false_iff_not]
        rw [show ((c.1, v)).1 = c.1 from rfl, hc]
        exact fun h => hm h.symm
      have h2 : (fun (c : String × Col) => decide (c.1 = m)) c = false := by
        simp only [decide_eq_false_iff_not]
        rw [hc]
        exact fun h => hm h.symm
      rw [find?_cons_neg' (fun c : String × Col => decide (c.1 = m)) (c.1, v) _ h1,
        find?_cons_neg' (fun c : String × Col => decide (c.1 = m)) c _ h2]
      exact ih
    · by_cases hcm : c.1 = m
      · rw [if_neg hc]
        rw [find?_cons_pos' (fun c : String × Col => decide (c.1 = m)) c _
            (decide_eq_true hcm)]
        rw [find?_cons_pos' (fun c : String × Col => decide (c.1 = m)) c _
            (decide_eq_true hcm)]
      · rw [if_neg hc]
        rw [find?_cons_neg' (fun c : String × Col => decide (c.1 = m)) c _
            (decide_eq_false hcm)]
        rw [find?_cons_neg' (fun c : String × Col => decide (c.1 = m)) c _
            (decide_eq_false hcm)]
        exact ih

theorem find?_map_replace_same (l : List (String × Col)) (n : String) (v : Col)
    (h : ∃ c ∈ l, c.1 = n) :
    (l.map (fun c => if c.1 = n then (c.1, v) else c)).find? (fun c => c.1 = n) =
      some (n, v) := by
  induction l with
  | nil => rcases h with ⟨c, hc, _⟩; cases hc
  | cons c cs ih =>
    simp only [List.map_cons]
    by_cases hc : c.1 = n
    · rw [if_pos hc]
      rw [find?_cons_pos' (fun c : String × Col => decide (c.1 = n)) (c.1, v) _
          (decide_eq_true (show ((c.1, v)).1 = n from hc))]
      rw [show ((c.1, v) : String × Col) = (n, v) from by rw [Prod.mk.injEq]; exact ⟨hc, rfl⟩]
    · rw [if_neg hc]
      rw [find?_cons_neg' (fun c : String × Col => decide (c.1 = n)) c _
          (decide_eq_false hc)]
      rcases h with ⟨c0, hc0, hc0n⟩
      rcases List.mem_cons.mp hc0 with rfl | hmem
      · exact absurd hc0n hc
      · exact ih ⟨c0, hmem, hc0n⟩

theorem getCol_setCol_other (df : DataFrame) (n m : String) (v : Col) (hm : m ≠ n) :
    (df.setCol n v).getCol m = df.getCol m := by
  unfold DataFrame.setCol
  split_ifs with hany
  · show DataFrame.getCol ⟨df.cols.map (fun c => if c.1 = n then (c.1, v) else c)⟩ m =
      df.getCol m
    unfold DataFrame.getCol
    rw [find?_map_replace_other df.cols n m v hm]
  · show DataFrame.getCol ⟨df.cols ++ [(n, v)]⟩ m = df.getCol m
    unfold DataFrame.getCol
    rw [List.find?_append]
    have h1 : List.find? (fun c => decide (c.1 = m)) [(n, v)] = none := by
      rw [List.find?_eq_none]
      intro x hx
      simp only [List.mem_singleton] at hx
      subst hx
      simp only [decide_eq_true_eq]
      exact fun h => hm h.symm
    rw [h1, Option.or_none]

theorem getCol_setCol_same (df : DataFrame) (n : String) (v : Col) :
    (df.setCol n v).getCol n = some v := by
  unfold DataFrame.setCol
  split_ifs with hany
  · show DataFrame.getCol ⟨df.cols.map (fun c => if c.1 = n then (c.1, v) else c)⟩ n = some v
    unfold DataFrame.getCol
    rw [List.any_eq_true] at hany
    rcases hany with ⟨c0, hc0, hc0n⟩
    rw [find?_map_replace_same df.cols n v ⟨c0, hc0, of_decide_eq_true hc0n⟩]
    rfl
  · show DataFrame.getCol ⟨df.cols ++ [(n, v)]⟩ n = some v
    unfold DataFrame.getCol
    rw [List.find?_append]
    have hnone : df.cols.find? (fun c => decide (c.1 = n)) = none := by
      rw [List.find?_eq_none]
      intro c hc
      simp only [decide_eq_true_eq]
      intro hcn
      rw [List.any_eq_true] at hany
      exact hany ⟨c, hc, by simp [hcn]⟩
    rw [hnone, Option.none_or]
    rw [find?_cons_pos' (fun c : String × Col => decide (c.1 = n)) (n, v) [] (by simp)]
    rfl

/-- C10 counterexample: on a frame that already has a `keywords` column,
the tagging replaces that column (the frame is not extended and the
pre-existing column's values change), contradicting the claim that every
pre-existing column is unchanged and exactly one new column is added. -/
theorem C10_counterexample :
    attach_top_keywords_to_df ⟨[("keywords", [some "old"])]⟩ "review" none 5 "|" =
      .ok ⟨[("keywords", [some ""])]⟩ ∧
    (DataFrame.mk [("keywords", [some ""])] ≠ DataFrame.mk [("keywords", [some "old"])]) ∧
    (DataFrame.mk [("keywords", [some ""])]).cols.length =
      (DataFrame.mk [("keywords", [some "old"])]).cols.length := by
  refine ⟨by rfl, by decide, rfl⟩

/-- C10 (amended): on a successful call the returned frame agrees with
the input on every column other than `keywords`, carries a `keywords`
column (added on the right, or replacing an existing one of that name),
and when the candidate list is `None` that column is `""` for all of the
frame's rows; the input frame itself is untouched (the code writes into
`df.copy()`, embedded here as a pure function of the input). -/
theorem C10_frame_effect (df : DataFrame) (text_col : String)
    (cands : Option (List String)) (top_k : Nat) (sep : String) (d : DataFrame)
    (h : attach_top_keywords_to_df df text_col cands top_k sep = .ok d) :
    (∀ name, name ≠ "keywords" → d.getCol name = df.getCol name) ∧
    (∃ vals, d.getCol "keywords" = some vals) ∧
    (cands = none → d.getCol "keywords" = some (List.replicate df.nRows (some ""))) := by
  rcases cands with _ | cl
  · rw [show attach_top_keywords_to_df df text_col none top_k sep =
        .ok (df.setCol "keywords" (List.replicate df.nRows (some ""))) from rfl] at h
    have hd : d = df.setCol "keywords" (List.replicate df.nRows (some "")) := by
      cases h; rfl
    subst hd
    refine ⟨?_, ?_, ?_⟩
    · intro name hn
      exact getCol_setCol_other df "keywords" name _ hn
    · exact ⟨_, getCol_setCol_same df "keywords" _⟩
    · intro _
      exact getCol_setCol_same df "keywords" _
  · rw [show attach_top_keywords_to_df df text_col (some cl) top_k sep =
        (match df.getCol text_col with
         | none => .error "KeyError"
         | some tc => .ok (df.setCol "keywords"
             (tc.map (fun cell =>
               some (find_keywords (sortCandidates cl) top_k sep
                 (some (cell.getD ""))))))) from rfl] at h
    cases htc : df.getCol text_col with
    | none => rw [htc] at h; cases h
    | some tc =>
      rw [htc] at h
      have hd : d = df.setCol "keywords"
          (tc.map (fun cell =>
            some (find_keywords (sortCandidates cl) top_k sep (some (cell.getD ""))))) := by
        cases h; rfl
      subst hd
      refine ⟨?_, ?_, ?_⟩
      · intro name hn
        exact getCol_setCol_other df "keywords" name _ hn
      · exact ⟨_, getCol_setCol_same df "keywords" _⟩
      · intro hcn; cases hcn

/-- C10 witness: the amended statement applied at a concrete frame. -/
theorem C10_frame_effect_witness :
    attach_top_keywords_to_df ⟨[("review", [some "x"])]⟩ "review" none 3 "|" =
      .ok ⟨[("review", [some "x"]), ("keywords", [some ""])]⟩ ∧
    ((∀ name, name ≠ "keywords" →
        (DataFrame.mk [("review", [some "x"]), ("keywords", [some ""])]).getCol name =
          (DataFrame.mk [("review", [some "x"])]).getCol name) ∧
     (∃ vals, (DataFrame.mk [("review", [some "x"]), ("keywords", [some ""])]).getCol
        "keywords" = some vals) ∧
     ((none : Option (List String)) = none →
       (DataFrame.mk [("review", [some "x"]), ("keywords", [some ""])]).getCol "keywords" =
         some (List.replicate (DataFrame.mk [("review", [some "x"])]).nRows (some "")))) :=
  ⟨by rfl, C10_frame_effect ⟨[("review", [some "x"])]⟩ "review" none 3 "|"
    ⟨[("review", [some "x"]), ("keywords", [some ""])]⟩ (by rfl)⟩

/-! ## Claims C2 and C5: the batch scatter -/

theorem batchOf_length (texts : List α) (bs i : Nat) :
    (batchOf texts bs i).length = min bs (texts.length - i * bs) := by
  simp [batchOf]

theorem writeSlice_length (res : List β) (s : Nat) (vals : List β)
    (h : s + vals.length ≤ res.length) :
    (writeSlice res s vals).length = res.length := by
  unfold writeSlice
  simp only [List.length_append, List.length_take, List.length_drop]
  omega

theorem writeSlice_getElem? (res : List β) (s : Nat) (vals : List β) (j : Nat)
    (h : s + vals.length ≤ res.length) :
    (writeSlice res s vals)[j]? =
      if s ≤ j ∧ j < s + vals.length then vals[j - s]? else res[j]? := by
  unfold writeSlice
  have hts : (res.take s).length = s := by
    rw [List.length_take]
    omega
  by_cases h1 : j < s
  · rw [if_neg (by omega)]
    rw [List.getElem?_append_left (by simp only [List.length_append, hts]; omega)]
    rw [List.getElem?_append_left (by omega)]
    rw [List.getElem?_take, if_pos h1]
  · by_cases h2 : j < s + vals.length
    · rw [if_pos ⟨by omega, h2⟩]
      rw [List.getElem?_append_left (by simp only [List.length_append, hts]; omega)]
      rw [List.getElem?_append_right (by omega)]
      rw [hts]
    · rw [if_neg (by omega)]
      rw [List.getElem?_append_right (by simp only [List.length_append, hts]; omega)]
      rw [List.getElem?_drop]
      congr 1
      simp only [List.length_append, hts]
      omega

theorem nBatches_eq (n bs : Nat) (hbs : 0 < bs) (hn : 0 < n) :
    nBatches n bs = (n - 1) / bs + 1 := by
  unfold nBatches
  rw [show n + bs - 1 = (n - 1) + bs by omega]
  exact Nat.add_div_right _ hbs

theorem nBatches_zero (bs : Nat) (hbs : 0 < bs) : nBatches 0 bs = 0 := by
  unfold nBatches
  exact Nat.div_eq_of_lt (by omega)

theorem mul_lt_of_lt_nBatches {n bs i : Nat} (hbs : 0 < bs) (hi : i < nBatches n bs) :
    i * bs < n := by
  rcases Nat.eq_zero_or_pos n with rfl | hn
  · rw [nBatches_zero bs hbs] at hi
    omega
  · rw [nBatches_eq n bs hbs hn] at hi
    have h1 : i ≤ (n - 1) / bs := by omega
    have h2 : i * bs ≤ ((n - 1) / bs) * bs := Nat.mul_le_mul_right bs h1
    have h3 : ((n - 1) / bs) * bs ≤ n - 1 := Nat.div_mul_le_self _ _
    omega

theorem div_lt_nBatches {n bs j : Nat} (hbs : 0 < bs) (hj : j < n) :
    j / bs < nBatches n bs := by
  have hn : 0 < n := by omega
  rw [nBatches_eq n bs hbs hn]
  have h1 : j / bs ≤ (n - 1) / bs := Nat.div_le_div_right (by omega)
  omega

theorem scatterRun_invariant (n bs : Nat) (hbs : 0 < bs) (sB : Nat → List β)
    (hlen : ∀ i, i < nBatches n bs → (sB i).length = min bs (n - i * bs)) :
    ∀ (order : List Nat) (res : List (Option β)),
      res.length = n →
      (∀ i ∈ order, i < nBatches n bs) →
      (∀ j, j < n → res[j]? = some ((sB (j / bs))[j % bs]?) ∨ j / bs ∈ order) →
      (order.foldl (fun r i => writeSlice r (i * bs) ((sB i).map some)) res).length = n ∧
      ∀ j, j < n →
        (order.foldl (fun r i => writeSlice r (i * bs) ((sB i).map some)) res)[j]? =
          some ((sB (j / bs))[j % bs]?) := by
  intro order
  induction order with
  | nil =>
    intro res hres hmem hinv
    refine ⟨hres, ?_⟩
    intro j hj
    rcases hinv j hj with h | h
    · simpa using h
    · exact absurd h (List.not_mem_nil _)
  | cons i rest ih =>
    intro res hres hmem hinv
    simp only [List.foldl_cons]
    have hi : i < nBatches n bs := hmem i (List.mem_cons_self i rest)
    have hib : i * bs < n := mul_lt_of_lt_nBatches hbs hi
    have hleni : (sB i).length = min bs (n - i * bs) := hlen i hi
    have hbound : i * bs + ((sB i).map some).length ≤ res.length := by
      rw [hres, List.length_map, hleni]
      omega
    apply ih (writeSlice res (i * bs) ((sB i).map some))
    · rw [writeSlice_length _ _ _ hbound, hres]
    · exact fun i' hi' => hmem i' (List.mem_cons_of_mem i hi')
    · intro j hj
      rw [writeSlice_getElem? _ _ _ _ hbound]
      by_cases hw : i * bs ≤ j ∧ j < i * bs + ((sB i).map some).length
      · left
        rw [if_pos hw]
        have hw2 : j < i * bs + (sB i).length := by
          have := hw.2
          rwa [List.length_map] at this
        have hjdiv : j / bs = i := by
          refine Nat.div_eq_of_lt_le hw.1 ?_
          have : (sB i).length ≤ bs := by omega
          calc j < i * bs + (sB i).length := hw2
            _ ≤ i * bs + bs := by omega
            _ = (i + 1) * bs := by ring
        have hd := Nat.div_add_mod' j bs
        rw [hjdiv] at hd
        have hjmod : j % bs = j - i * bs := by omega
        rw [hjdiv, hjmod]
        have hlt : j - i * bs < (sB i).length := by omega
        rw [List.getElem?_map, List.getElem?_eq_getElem hlt]
        rfl
      · rw [if_neg hw]
        rcases hinv j hj with h | h
        · left; exact h
        · rcases List.mem_cons.mp h with heq | hmem'
          · exfalso
            apply hw
            have hd := Nat.div_add_mod' j bs
            rw [heq] at hd
            have hmod : j % bs < bs := Nat.mod_lt j hbs
            constructor
            · omega
            · rw [List.length_map, hleni]
              omega
          · right; exact hmem'

theorem scatterRun_eq (n bs : Nat) (hbs : 0 < bs) (sB : Nat → List β)
    (hlen : ∀ i, i < nBatches n bs → (sB i).length = min bs (n - i * bs))
    (order : List Nat) (horder : order.Perm (List.range (nBatches n bs))) :
    scatterRun n bs sB order = (List.range n).map (fun j => (sB (j / bs))[j % bs]?) := by
  have hmem : ∀ i ∈ order, i < nBatches n bs := fun i hi =>
    List.mem_range.mp (horder.mem_iff.mp hi)
  have hcov : ∀ j, j < n → j / bs ∈ order := fun j hj =>
    horder.mem_iff.mpr (List.mem_range.mpr (div_lt_nBatches hbs hj))
  have h := scatterRun_invariant n bs hbs sB hlen order (List.replicate n none)
    (List.length_replicate n none) hmem (fun j hj => Or.inr (hcov j hj))
  apply List.ext_getElem?
  intro j
  by_cases hj : j < n
  · rw [show scatterRun n bs sB order =
        order.foldl (fun r i => writeSlice r (i * bs) ((sB i).map some))
          (List.replicate n none) from rfl]
    rw [h.2 j hj, List.getElem?_map, List.getElem?_range hj]
    rfl
  · have h1 : (scatterRun n bs sB order).length = n := h.1
    rw [List.getElem?_eq_none (by omega), List.getElem?_eq_none (by simp; omega)]

/-- C2: for every completion order of the batches that is a permutation
of the batch indices, the scatter-by-index write-back produces exactly
the sequential per-record mapping (each output position `i` holds the
score of input record `i`). -/
theorem C2_scatter_order (texts : List α) (score : α → β) (bs : Nat) (order : List Nat)
    (hbs : 0 < bs) (horder : order.Perm (List.range (nBatches texts.length bs))) :
    annotate_dataframe_parallel texts score bs order = (texts.map score).map some := by
  unfold annotate_dataframe_parallel
  rw [scatterRun_eq texts.length bs hbs (fun i => (batchOf texts bs i).map score)
    (fun i _ => by rw [List.length_map, batchOf_length]) order horder]
  apply List.ext_getElem?
  intro j
  by_cases hj : j < texts.length
  · rw [List.getElem?_map, List.getElem?_range hj]
    simp only [Option.map_some']
    have hmod : j % bs < bs := Nat.mod_lt j hbs
    have hd := Nat.div_add_mod' j bs
    rw [show ((batchOf texts bs (j / bs)).map score)[j % bs]? =
        ((batchOf texts bs (j / bs))[j % bs]?).map score from List.getElem?_map _ _ _]
    rw [show (batchOf texts bs (j / bs))[j % bs]? =
        ((texts.drop (j / bs * bs)).take bs)[j % bs]? from rfl]
    rw [List.getElem?_take, if_pos hmod, List.getElem?_drop]
    rw [show j / bs * bs + j % bs = j from hd]
    rw [List.getElem?_eq_getElem hj]
    rw [show ((texts.map score).map some)[j]? =
        (((texts.map score))[j]?).map some from List.getElem?_map _ _ _]
    rw [show (texts.map score)[j]? = (texts[j]?).map score from List.getElem?_map _ _ _]
    rw [List.getElem?_eq_getElem hj]
    rfl
  · rw [List.getElem?_eq_none (by simp; omega), List.getElem?_eq_none (by simp; omega)]

/-- C2 witness: a three-record frame in two batches completing out of
submission order still yields the sequential mapping. -/
theorem C2_scatter_order_witness :
    (0 < 2 ∧ [1, 0].Perm (List.range (nBatches (["a", "bb", "ccc"] : List String).length 2))) ∧
    annotate_dataframe_parallel (["a", "bb", "ccc"] : List String) String.length 2 [1, 0] =
      ((["a", "bb", "ccc"] : List String).map String.length).map some :=
  ⟨⟨by decide, by decide⟩,
    C2_scatter_order ["a", "bb", "ccc"] String.length 2 [1, 0] (by decide) (by decide)⟩

/-- C5: if the model call of batch `i` raises, every output position of
batch `i` is the neutral/zero default, the annotation still covers the
whole frame (the run is not aborted), and `get_sentiment_score_batch`
reports the failure (the logged warning, returned as its flag). -/
theorem C5_batch_failure (texts : List (Option String))
    (model : Nat → Option (List (String × ℚ))) (bs : Nat) (order : List Nat)
    (hbs : 0 < bs) (horder : order.Perm (List.range (nBatches texts.length bs)))
    (hlen : ∀ i, i < nBatches texts.length bs →
      ((get_sentiment_score_batch (batchOf texts bs i) (model i)).1).length =
        (batchOf texts bs i).length)
    (i : Nat) (hfail : model i = none) :
    (annotate_with_model texts model bs order).length = texts.length ∧
    (∀ j, j < texts.length → j / bs = i →
      (annotate_with_model texts model bs order)[j]? = some (some ("neutral", (0 : ℚ)))) ∧
    (get_sentiment_score_batch (batchOf texts bs i) (model i)).2 = true := by
  have hlen' : ∀ i', i' < nBatches texts.length bs →
      ((get_sentiment_score_batch (batchOf texts bs i') (model i')).1).length =
        min bs (texts.length - i' * bs) := by
    intro i' hi'
    rw [hlen i' hi', batchOf_length]
  have heq := scatterRun_eq texts.length bs hbs
    (fun i' => (get_sentiment_score_batch (batchOf texts bs i') (model i')).1)
    hlen' order horder
  refine ⟨?_, ?_, ?_⟩
  · rw [show annotate_with_model texts model bs order =
        scatterRun texts.length bs
          (fun i' => (get_sentiment_score_batch (batchOf texts bs i') (model i')).1)
          order from rfl]
    rw [heq]
    simp
  · intro j hj hdiv
    rw [show annotate_with_model texts model bs order =
        scatterRun texts.length bs
          (fun i' => (get_sentiment_score_batch (batchOf texts bs i') (model i')).1)
          order from rfl]
    rw [heq, List.getElem?_map, List.getElem?_range hj]
    simp only [Option.map_some']
    rw [hdiv]
    have hbatch : (get_sentiment_score_batch (batchOf texts bs i) (model i)).1 =
        (batchOf texts bs i).map (fun _ => ("neutral", (0 : ℚ))) := by
      rw [show (get_sentiment_score_batch (batchOf texts bs i) (model i)).1 =
          (match model i with
           | some r => r
           | none => ((batchOf texts bs i).map
               (fun t => match t with | some s => truncate512 s | none => "")).map
               (fun _ => ("neutral", (0 : ℚ)))).map postLabelScore from rfl]
      rw [hfail]
      rw [List.map_map, List.map_map]
      rfl
    rw [hbatch]
    have hi : i < nBatches texts.length bs := by
      rw [← hdiv]
      exact div_lt_nBatches hbs hj
    have hmod : j % bs < (batchOf texts bs i).length := by
      rw [batchOf_length]
      have h1 : j % bs < bs := Nat.mod_lt j hbs
      have hd := Nat.div_add_mod' j bs
      rw [hdiv] at hd
      omega
    rw [List.getElem?_map, List.getElem?_eq_getElem hmod]
    rfl
  · rw [show (get_sentiment_score_batch (batchOf texts bs i) (model i)).2 =
        (model i).isNone from rfl]
    rw [hfail]
    rfl

/-- C5 witness: batch 0 of a concrete run fails; its two members come
back neutral/zero, the output still covers all three records, and the
failure is flagged. -/
theorem C5_batch_failure_witness :
    (0 < 2 ∧
     [1, 0].Perm (List.range (nBatches textsW.length 2)) ∧
     (∀ i, i < nBatches textsW.length 2 →
       ((get_sentiment_score_batch (batchOf textsW 2 i) (modelW i)).1).length =
         (batchOf textsW 2 i).length) ∧
     modelW 0 = none) ∧
    ((annotate_with_model textsW modelW 2 [1, 0]).length = textsW.length ∧
     (∀ j, j < textsW.length → j / 2 = 0 →
       (annotate_with_model textsW modelW 2 [1, 0])[j]? = some (some ("neutral", (0 : ℚ)))) ∧
     (get_sentiment_score_batch (batchOf textsW 2 0) (modelW 0)).2 = true) :=
  ⟨⟨by decide, by decide, by decide, by rfl⟩,
    C5_batch_failure textsW modelW 2 [1, 0] (by decide) (by decide) (by decide) 0 (by rfl)⟩

/-! ## Claim C6: character-class facts -/

theorem toLower_fix (c : Char) (h : isLowerAlnum c = true ∨ c = ' ') :
    Char.toLower c = c := by
  unfold Char.toLower
  rw [if_neg]
  rcases h with h | rfl
  · simp only [isLowerAlnum, Bool.or_eq_true, Bool.and_eq_true, decide_eq_true_eq] at h
    rcases h with ⟨h1, h2⟩ | ⟨h1, h2⟩
    · rw [Char.le_def] at h1 h2
      have e1 : (97 : Nat) ≤ c.toNat := h1
      have e2 : c.toNat ≤ 122 := h2
      omega
    · rw [Char.le_def] at h1 h2
      have e1 : (48 : Nat) ≤ c.toNat := h1
      have e2 : c.toNat ≤ 57 := h2
      omega
  · decide

theorem alnum_not_space (c : Char) (h : isLowerAlnum c = true) : pyIsSpace c = false := by
  simp only [isLowerAlnum, Bool.or_eq_true, Bool.and_eq_true, decide_eq_true_eq] at h
  simp only [pyIsSpace, Bool.or_eq_false_iff]
  refine ⟨⟨⟨⟨⟨?_, ?_⟩, ?_⟩, ?_⟩, ?_⟩, ?_⟩ <;>
    · rw [beq_eq_false_iff_ne]
      intro rfl'
      subst rfl'
      rcases h with ⟨h1, h2⟩ | ⟨h1, h2⟩ <;> rw [Char.le_def] at h1 h2 <;> revert h1 h2 <;> decide

theorem alnum_not_crlf (c : Char) (h : isLowerAlnum c = true) : isCrlfTab c = false := by
  simp only [isLowerAlnum, Bool.or_eq_true, Bool.and_eq_true, decide_eq_true_eq] at h
  simp only [isCrlfTab, Bool.or_eq_false_iff]
  refine ⟨⟨?_, ?_⟩, ?_⟩ <;>
    · rw [beq_eq_false_iff_ne]
      intro rfl'
      subst rfl'
      rcases h with ⟨h1, h2⟩ | ⟨h1, h2⟩ <;> rw [Char.le_def] at h1 h2 <;> revert h1 h2 <;> decide

/-! ## Claim C6: splitting lemmas -/

theorem pySplitAux_sound :
    ∀ (l acc : List Char), (∀ c ∈ acc, pyIsSpace c = false) →
      ∀ t ∈ pySplitAux l acc,
        t ≠ [] ∧ (∀ c ∈ t, pyIsSpace c = false) ∧ (∀ c ∈ t, c ∈ acc ∨ c ∈ l) := by
  intro l
  induction l with
  | nil =>
    intro acc hacc t ht
    simp only [pySplitAux] at ht
    split_ifs at ht with hae
    · cases ht
    · rcases List.mem_singleton.mp ht with rfl
      refine ⟨?_, ?_, ?_⟩
      · intro hrev
        rw [List.reverse_eq_nil_iff] at hrev
        subst hrev
        simp at hae
      · intro c hc
        exact hacc c (List.mem_reverse.mp hc)
      · intro c hc
        exact Or.inl (List.mem_reverse.mp hc)
  | cons x xs ih =>
    intro acc hacc t ht
    simp only [pySplitAux] at ht
    split_ifs at ht with hsp hae
    · rcases ih [] (by simp) t ht with ⟨h1, h2, h3⟩
      refine ⟨h1, h2, ?_⟩
      intro c hc
      rcases h3 c hc with hin | hin
      · cases hin
      · exact Or.inr (List.mem_cons_of_mem x hin)
    · rcases List.mem_cons.mp ht with rfl | ht'
      · refine ⟨?_, ?_, ?_⟩
        · intro hrev
          rw [List.reverse_eq_nil_iff] at hrev
          subst hrev
          simp at hae
        · intro c hc
          exact hacc c (List.mem_reverse.mp hc)
        · intro c hc
          exact Or.inl (List.mem_reverse.mp hc)
      · rcases ih [] (by simp) t ht' with ⟨h1, h2, h3⟩
        refine ⟨h1, h2, ?_⟩
        intro c hc
        rcases h3 c hc with hin | hin
        · cases hin
        · exact Or.inr (List.mem_cons_of_mem x hin)
    · have hacc' : ∀ c ∈ x :: acc, pyIsSpace c = false := by
        intro c hc
        rcases List.mem_cons.mp hc with rfl | hc'
        · simpa using hsp
        · exact hacc c hc'
      rcases ih (x :: acc) hacc' t ht with ⟨h1, h2, h3⟩
      refine ⟨h1, h2, ?_⟩
      intro c hc
      rcases h3 c hc with hin | hin
      · rcases List.mem_cons.mp hin with rfl | hin'
        · exact Or.inr (List.mem_cons_self c xs)
        · exact Or.inl hin'
      · exact Or.inr (List.mem_cons_of_mem x hin)

theorem pySplitAux_contig :
    ∀ (l acc : List Char), ∀ t ∈ pySplitAux l acc, t <:+: (acc.reverse ++ l) := by
  intro l
  induction l with
  | nil =>
    intro acc t ht
    simp only [pySplitAux] at ht
    split_ifs at ht with hae
    · cases ht
    · rcases List.mem_singleton.mp ht with rfl
      simp
  | cons x xs ih =>
    intro acc t ht
    simp only [pySplitAux] at ht
    split_ifs at ht with hsp hae
    · have h := ih [] t ht
      simp only [List.reverse_nil, List.nil_append] at h
      have h2 : xs <:+ acc.reverse ++ x :: xs :=
        (List.suffix_cons x xs).trans (List.suffix_append _ _)
      exact h.trans h2.isInfix
    · rcases List.mem_cons.mp ht with rfl | ht'
      · exact (List.prefix_append _ (x :: xs)).isInfix
      · have h := ih [] t ht'
        simp only [List.reverse_nil, List.nil_append] at h
        have h2 : xs <:+ acc.reverse ++ x :: xs :=
          (List.suffix_cons x xs).trans (List.suffix_append _ _)
        exact h.trans h2.isInfix
    · have h := ih (x :: acc) t ht
      rw [List.reverse_cons, List.append_assoc] at h
      simpa using h

theorem pySplitAux_run (rest : List Char) :
    ∀ (t acc : List Char), (∀ c ∈ t, pyIsSpace c = false) →
      pySplitAux (t ++ rest) acc = pySplitAux rest (t.reverse ++ acc) := by
  intro t
  induction t with
  | nil => intro acc _; simp
  | cons c t' ih =>
    intro acc ht
    have hc : pyIsSpace c = false := ht c (List.mem_cons_self c t')
    simp only [List.cons_append, pySplitAux, hc]
    rw [if_neg (by simp)]
    show pySplitAux (t' ++ rest) (c :: acc) = pySplitAux rest ((c :: t').reverse ++ acc)
    rw [ih (c :: acc) (fun c' hc' => ht c' (List.mem_cons_of_mem c hc'))]
    congr 1
    simp

theorem pySplit_joinSpace :
    ∀ toks : List (List Char),
      (∀ t ∈ toks, t ≠ [] ∧ ∀ c ∈ t, pyIsSpace c = false) →
      pySplit (joinSpace toks) = toks := by
  intro toks
  induction toks with
  | nil => intro _; rfl
  | cons t ts ih =>
    intro h
    rcases h t (List.mem_cons_self t ts) with ⟨hne, hns⟩
    cases ts with
    | nil =>
      show pySplitAux (joinSpace [t]) [] = [t]
      rw [show joinSpace [t] = t from rfl]
      rw [show (t : List Char) = t ++ [] from by simp] at hns ⊢
      rw [pySplitAux_run [] t [] (by simpa using hns)]
      simp only [pySplitAux, List.append_nil]
      rw [if_neg (by simpa using hne)]
      simp
    | cons t' ts' =>
      show pySplitAux (joinSpace (t :: t' :: ts')) [] = t :: t' :: ts'
      rw [show joinSpace (t :: t' :: ts') = t ++ ' ' :: joinSpace (t' :: ts') from rfl]
      rw [pySplitAux_run (' ' :: joinSpace (t' :: ts')) t [] hns]
      simp only [pySplitAux]
      rw [if_pos (by decide)]
      rw [if_neg (by simpa using hne)]
      rw [show (t.reverse ++ [] : List Char).reverse = t from by simp]
      have := ih (fun u hu => h u (List.mem_cons_of_mem t hu))
      rw [show pySplitAux (joinSpace (t' :: ts')) [] = pySplit (joinSpace (t' :: ts'))
        from rfl, this]

/-! ## Claim C6: occurrence algebra for the URL pattern -/

theorem hasHttpAt_cons_ne (c : Char) (l : List Char) (h : c ≠ 'h') :
    hasHttpAt (c :: l) = false := by
  unfold hasHttpAt
  rw [Bool.and_eq_false_iff]
  left
  rw [decide_eq_false_iff_not]
  intro heq
  rw [List.take_succ_cons] at heq
  exact h (List.head_eq_of_cons_eq heq)

theorem hasHttpAt_length (s : List Char) (h : hasHttpAt s = true) : 5 ≤ s.length := by
  unfold hasHttpAt at h
  rw [Bool.and_eq_true] at h
  rcases h with ⟨h1, h2⟩
  rw [decide_eq_true_eq] at h1
  have hlen4 : (s.take 4).length = 4 := by rw [h1]; rfl
  rw [List.length_take] at hlen4
  have hne : s.drop 4 ≠ [] := by
    intro hnil
    rw [hnil] at h2
    simp [pyIsSpace] at h2
  have := List.length_pos.mpr hne
  rw [List.length_drop] at this
  omega

theorem hasHttpAt_append (s r : List Char) (h : hasHttpAt s = true) :
    hasHttpAt (s ++ r) = true := by
  have hlen := hasHttpAt_length s h
  unfold hasHttpAt at h ⊢
  rw [Bool.and_eq_true] at h ⊢
  rcases h with ⟨h1, h2⟩
  constructor
  · rw [List.take_append_of_le_length (by omega)]
    exact h1
  · rw [List.drop_append_of_le_length (by omega)]
    cases hd : s.drop 4 with
    | nil =>
      exfalso
      have := List.length_drop 4 s
      rw [hd] at this
      simp at this
      omega
    | cons d ds =>
      rw [hd] at h2
      simpa using h2

theorem hasHttpMatch_iff (l : List Char) :
    hasHttpMatch l = true ↔ ∃ s, s <:+ l ∧ hasHttpAt s = true := by
  induction l with
  | nil =>
    simp only [hasHttpMatch]
    constructor
    · intro h; cases h
    · rintro ⟨s, hs, hat⟩
      rw [List.suffix_nil.mp hs] at hat
      have := hasHttpAt_length [] hat
      simp at this
  | cons c cs ih =>
    simp only [hasHttpMatch, Bool.or_eq_true]
    constructor
    · rintro (h | h)
      · exact ⟨c :: cs, List.suffix_refl _, h⟩
      · rcases ih.mp h with ⟨s, hs, hat⟩
        exact ⟨s, hs.trans (List.suffix_cons c cs), hat⟩
    · rintro ⟨s, hs, hat⟩
      rcases List.suffix_cons_iff.mp hs with heq | hs'
      · left; rw [← heq]; exact hat
      · right; exact ih.mpr ⟨s, hs', hat⟩

theorem hasHttpMatch_suffix (s l : List Char) (hs : s <:+ l)
    (h : hasHttpMatch l = false) : hasHttpMatch s = false := by
  cases hm : hasHttpMatch s with
  | false => rfl
  | true =>
    exfalso
    rcases (hasHttpMatch_iff s).mp hm with ⟨u, hu, hat⟩
    have : hasHttpMatch l = true := (hasHttpMatch_iff l).mpr ⟨u, hu.trans hs, hat⟩
    rw [h] at this
    cases this

theorem hasHttpMatch_within (t l : List Char) (ht : t <:+: l)
    (h : hasHttpMatch l = false) : hasHttpMatch t = false := by
  cases hm : hasHttpMatch t with
  | false => rfl
  | true =>
    exfalso
    rcases (hasHttpMatch_iff t).mp hm with ⟨u, hu, hat⟩
    rcases ht with ⟨p, q, rfl⟩
    rcases hu with ⟨v, rfl⟩
    have hsuf : u ++ q <:+ p ++ (v ++ u) ++ q := ⟨p ++ v, by simp⟩
    have hat2 : hasHttpAt (u ++ q) = true := hasHttpAt_append u q hat
    have : hasHttpMatch (p ++ (v ++ u) ++ q) = true :=
      (hasHttpMatch_iff _).mpr ⟨u ++ q, hsuf, hat2⟩
    rw [h] at this
    cases this

theorem hasHttpAt_append_space (t r : List Char) (h : hasHttpAt t = false) :
    hasHttpAt (t ++ ' ' :: r) = false := by
  cases hm : hasHttpAt (t ++ ' ' :: r) with
  | false => rfl
  | true =>
    exfalso
    unfold hasHttpAt at hm
    rw [Bool.and_eq_true] at hm
    rcases hm with ⟨h1, h2⟩
    rw [decide_eq_true_eq] at h1
    by_cases hl : 5 ≤ t.length
    · unfold hasHttpAt at h
      rw [Bool.and_eq_false_iff] at h
      rcases h with h | h
      · rw [decide_eq_false_iff_not] at h
        rw [List.take_append_of_le_length (by omega)] at h1
        exact h h1
      · rw [List.drop_append_of_le_length (by omega)] at h2
        cases hd : t.drop 4 with
        | nil =>
          have := List.length_drop 4 t
          rw [hd] at this
          simp at this
          omega
        | cons d ds =>
          rw [hd] at h2
          rw [hd] at h
          simp only [List.cons_append, List.headD_cons] at h2 h
          rw [h] at h2
          cases h2
    · by_cases hl4 : t.length = 4
      · rw [List.drop_append_of_le_length (by omega)] at h2
        rw [List.drop_eq_nil_of_le (by omega)] at h2
        simp [pyIsSpace] at h2
      · -- t.length ≤ 3: the taken window contains the separating space
        have hsp : (' ' : Char) ∈ (t ++ ' ' :: r).take 4 := by
          rw [List.take_append_eq_append_take]
          refine List.mem_append.mpr (Or.inr ?_)
          rw [List.take_cons (by omega)]
          exact List.mem_cons_self _ _
        rw [h1] at hsp
        simp at hsp

theorem hasHttpMatch_append_space (t r : List Char) (ht : hasHttpMatch t = false)
    (hr : hasHttpMatch r = false) : hasHttpMatch (t ++ ' ' :: r) = false := by
  induction t with
  | nil =>
    simp only [List.nil_append, hasHttpMatch, Bool.or_eq_false_iff]
    exact ⟨hasHttpAt_cons_ne ' ' r (by decide), hr⟩
  | cons c t' ih =>
    simp only [hasHttpMatch, Bool.or_eq_false_iff] at ht
    simp only [List.cons_append, hasHttpMatch, Bool.or_eq_false_iff]
    constructor
    · have := hasHttpAt_append_space (c :: t') r ht.1
      simpa using this
    · exact ih ht.2

theorem mem_joinSpace :
    ∀ (toks : List (List Char)) (c : Char), c ∈ joinSpace toks →
      c = ' ' ∨ ∃ t ∈ toks, c ∈ t := by
  intro toks
  induction toks with
  | nil => intro c hc; cases hc
  | cons t ts ih =>
    intro c hc
    cases ts with
    | nil =>
      right
      exact ⟨t, List.mem_cons_self t [], by simpa [joinSpace] using hc⟩
    | cons t' ts' =>
      rw [show joinSpace (t :: t' :: ts') = t ++ ' ' :: joinSpace (t' :: ts') from rfl] at hc
      rcases List.mem_append.mp hc with hin | hin
      · exact Or.inr ⟨t, List.mem_cons_self t _, hin⟩
      · rcases List.mem_cons.mp hin with rfl | hin'
        · exact Or.inl rfl
        · rcases ih c hin' with h | ⟨u, hu, hcu⟩
          · exact Or.inl h
          · exact Or.inr ⟨u, List.mem_cons_of_mem t hu, hcu⟩

theorem hasHttpMatch_joinSpace :
    ∀ toks : List (List Char), (∀ t ∈ toks, hasHttpMatch t = false) →
      hasHttpMatch (joinSpace toks) = false := by
  intro toks
  induction toks with
  | nil => intro _; rfl
  | cons t ts ih =>
    intro h
    cases ts with
    | nil => simpa [joinSpace] using h t (List.mem_cons_self t [])
    | cons t' ts' =>
      rw [show joinSpace (t :: t' :: ts') = t ++ ' ' :: joinSpace (t' :: ts') from rfl]
      exact hasHttpMatch_append_space _ _ (h t (List.mem_cons_self t _))
        (ih fun u hu => h u (List.mem_cons_of_mem t hu))

/-! ## Claim C6: the URL scrubber leaves no match behind -/

theorem subHttp_cons_struct (m : List Char) (y : Char) (ys : List Char)
    (h : subHttp m = y :: ys) (hy : y ≠ ' ') :
    ∃ m', m = y :: m' ∧ ys = subHttp m' := by
  cases m with
  | nil => rw [subHttp] at h; cases h
  | cons c cs =>
    rw [subHttp] at h
    split_ifs at h with hat
    · exact absurd (List.head_eq_of_cons_eq h).symm hy
    · exact ⟨cs, by rw [List.head_eq_of_cons_eq h],
        (List.tail_eq_of_cons_eq h).symm⟩

theorem subCrlf_cons_struct (m : List Char) (y : Char) (ys : List Char)
    (h : subCrlf m = y :: ys) (hy : y ≠ ' ') :
    ∃ m', m = y :: m' ∧ ys = subCrlf m' := by
  cases m with
  | nil => rw [subCrlf] at h; cases h
  | cons c cs =>
    rw [subCrlf] at h
    split_ifs at h with hat
    · exact absurd (List.head_eq_of_cons_eq h).symm hy
    · exact ⟨cs, by rw [List.head_eq_of_cons_eq h],
        (List.tail_eq_of_cons_eq h).symm⟩

theorem hasHttpAt_cons_pull (f : List Char → List Char)
    (hstruct : ∀ m y ys, f m = y :: ys → y ≠ ' ' → ∃ m', m = y :: m' ∧ ys = f m')
    (c : Char) (cs : List Char) (h : hasHttpAt (c :: f cs) = true) :
    hasHttpAt (c :: cs) = true := by
  unfold hasHttpAt at h
  rw [Bool.and_eq_true] at h
  rcases h with ⟨h1, h2⟩
  rw [decide_eq_true_eq] at h1
  rw [show (4 : Nat) = 3 + 1 from rfl, List.take_succ_cons] at h1
  injection h1 with hc h1t
  have hX : f cs = 't' :: 't' :: 'p' :: (f cs).drop 3 := by
    conv_lhs => rw [← List.take_append_drop 3 (f cs)]
    rw [h1t]
    rfl
  rw [show (4 : Nat) = 3 + 1 from rfl, List.drop_succ_cons] at h2
  cases hR : (f cs).drop 3 with
  | nil =>
    rw [hR] at h2
    simp [pyIsSpace] at h2
  | cons e R' =>
    rw [hR] at h2 hX
    simp only [List.headD_cons] at h2
    have hpe : pyIsSpace e = false := by simpa using h2
    have he : e ≠ ' ' := by
      intro heq
      subst heq
      simp [pyIsSpace] at hpe
    rcases hstruct cs 't' _ hX (by decide) with ⟨cs₁, hcs, hys₁⟩
    rcases hstruct cs₁ 't' _ hys₁.symm (by decide) with ⟨cs₂, hcs₁, hys₂⟩
    rcases hstruct cs₂ 'p' _ hys₂.symm (by decide) with ⟨cs₃, hcs₂, hys₃⟩
    rcases hstruct cs₃ e _ hys₃.symm he with ⟨cs₄, hcs₃, _⟩
    subst hc hcs hcs₁ hcs₂ hcs₃
    unfold hasHttpAt
    rw [show List.take 4 ('h' :: 't' :: 't' :: 'p' :: e :: cs₄) = ['h', 't', 't', 'p']
      from rfl]
    rw [show ((('h' :: 't' :: 't' :: 'p' :: e :: cs₄)).drop 4).headD ' ' = e from rfl]
    rw [hpe]
    rfl

theorem hasHttpMatch_subHttp_fuel :
    ∀ (n : Nat) (l : List Char), l.length ≤ n → hasHttpMatch (subHttp l) = false := by
  intro n
  induction n with
  | zero =>
    intro l hl
    have : l = [] := List.length_eq_zero.mp (by omega)
    subst this
    rw [subHttp]
    rfl
  | succ n ih =>
    intro l hl
    cases l with
    | nil => rw [subHttp]; rfl
    | cons c cs =>
      rw [subHttp]
      split_ifs with hat
      · rw [show hasHttpMatch (' ' :: subHttp (((c :: cs).drop 4).dropWhile
            (fun x => !pyIsSpace x))) =
          (hasHttpAt (' ' :: subHttp (((c :: cs).drop 4).dropWhile (fun x => !pyIsSpace x)))
            || hasHttpMatch (subHttp (((c :: cs).drop 4).dropWhile (fun x => !pyIsSpace x))))
          from rfl]
        rw [hasHttpAt_cons_ne _ _ (by decide)]
        rw [ih _ ?_]
        · rfl
        · have l1 := (List.dropWhile_suffix
            (fun x => !pyIsSpace x) (l := (c :: cs).drop 4)).length_le
          have l2 := List.length_drop 4 (c :: cs)
          simp only [List.length_cons] at hl l2
          omega
      · have hcs : cs.length ≤ n := by
          simp only [List.length_cons] at hl
          omega
        rw [show hasHttpMatch (c :: subHttp cs) =
          (hasHttpAt (c :: subHttp cs) || hasHttpMatch (subHttp cs)) from rfl]
        rw [ih cs hcs]
        cases hat2 : hasHttpAt (c :: subHttp cs) with
        | false => rfl
        | true =>
          exact absurd (hasHttpAt_cons_pull subHttp subHttp_cons_struct c cs hat2) hat

theorem hasHttpMatch_subHttp (l : List Char) : hasHttpMatch (subHttp l) = false :=
  hasHttpMatch_subHttp_fuel l.length l le_rfl

theorem subHttp_id_fuel :
    ∀ (n : Nat) (l : List Char), l.length ≤ n → hasHttpMatch l = false →
      subHttp l = l := by
  intro n
  induction n with
  | zero =>
    intro l hl _
    have : l = [] := List.length_eq_zero.mp (by omega)
    subst this
    rw [subHttp]
  | succ n ih =>
    intro l hl h
    cases l with
    | nil => rw [subHttp]
    | cons c cs =>
      rw [show hasHttpMatch (c :: cs) = (hasHttpAt (c :: cs) || hasHttpMatch cs)
        from rfl, Bool.or_eq_false_iff] at h
      rw [subHttp]
      rw [if_neg (by rw [h.1]; exact Bool.false_ne_true)]
      congr 1
      exact ih cs (by simp only [List.length_cons] at hl; omega) h.2

theorem subHttp_id (l : List Char) (h : hasHttpMatch l = false) : subHttp l = l :=
  subHttp_id_fuel l.length l le_rfl h

theorem hasHttpMatch_subCrlf_fuel :
    ∀ (n : Nat) (l : List Char), l.length ≤ n → hasHttpMatch l = false →
      hasHttpMatch (subCrlf l) = false := by
  intro n
  induction n with
  | zero =>
    intro l hl _
    have : l = [] := List.length_eq_zero.mp (by omega)
    subst this
    rw [subCrlf]
    rfl
  | succ n ih =>
    intro l hl h
    cases l with
    | nil => rw [subCrlf]; rfl
    | cons c cs =>
      rw [show hasHttpMatch (c :: cs) = (hasHttpAt (c :: cs) || hasHttpMatch cs)
        from rfl, Bool.or_eq_false_iff] at h
      rw [subCrlf]
      split_ifs with hcr
      · rw [show hasHttpMatch (' ' :: subCrlf (cs.dropWhile isCrlfTab)) =
          (hasHttpAt (' ' :: subCrlf (cs.dropWhile isCrlfTab))
            || hasHttpMatch (subCrlf (cs.dropWhile isCrlfTab))) from rfl]
        rw [hasHttpAt_cons_ne _ _ (by decide)]
        rw [ih _ ?_ ?_]
        · rfl
        · have l1 := (List.dropWhile_suffix isCrlfTab (l := cs)).length_le
          simp only [List.length_cons] at hl
          omega
        · exact hasHttpMatch_suffix _ _ (List.dropWhile_suffix isCrlfTab) h.2
      · have hcs : cs.length ≤ n := by
          simp only [List.length_cons] at hl
          omega
        rw [show hasHttpMatch (c :: subCrlf cs) =
          (hasHttpAt (c :: subCrlf cs) || hasHttpMatch (subCrlf cs)) from rfl]
        rw [ih cs hcs h.2]
        cases hat2 : hasHttpAt (c :: subCrlf cs) with
        | false => rfl
        | true =>
          exact absurd (hasHttpAt_cons_pull subCrlf subCrlf_cons_struct c cs hat2)
            (by rw [h.1]; exact Bool.false_ne_true)

theorem hasHttpMatch_subCrlf (l : List Char) (h : hasHttpMatch l = false) :
    hasHttpMatch (subCrlf l) = false :=
  hasHttpMatch_subCrlf_fuel l.length l le_rfl h

theorem subCrlf_id (l : List Char) (h : ∀ c ∈ l, isCrlfTab c = false) :
    subCrlf l = l := by
  induction l with
  | nil => rw [subCrlf]
  | cons c cs ih =>
    rw [subCrlf]
    rw [if_neg (by rw [h c (List.mem_cons_self c cs)]; exact Bool.false_ne_true)]
    congr 1
    exact ih (fun c' hc' => h c' (List.mem_cons_of_mem c hc'))

/-! ## Claim C6: the punctuation map -/

theorem punct_chars (l : List Char) :
    ∀ c ∈ punctToSpace l, (isLowerAlnum c || pyIsSpace c) = true := by
  intro c hc
  rcases List.mem_map.mp hc with ⟨a, _, ha⟩
  by_cases hcond : (isLowerAlnum a || pyIsSpace a) = true
  · rw [if_pos hcond] at ha
    rw [← ha]
    exact hcond
  · rw [if_neg hcond] at ha
    rw [← ha]
    decide

theorem punctToSpace_id (l : List Char)
    (h : ∀ c ∈ l, (isLowerAlnum c || pyIsSpace c) = true) : punctToSpace l = l := by
  induction l with
  | nil => rfl
  | cons c cs ih =>
    unfold punctToSpace
    rw [List.map_cons]
    rw [if_pos (h c (List.mem_cons_self c cs))]
    rw [show List.map (fun c => if isLowerAlnum c || pyIsSpace c then c else ' ') cs =
      punctToSpace cs from rfl]
    rw [ih (fun c' hc' => h c' (List.mem_cons_of_mem c hc'))]

theorem punctChar_eq_of (x y : Char) (hy : isLowerAlnum y = true)
    (h : (if isLowerAlnum x || pyIsSpace x then x else ' ') = y) : x = y := by
  split_ifs at h with hcond
  · exact h
  · exfalso
    rw [← h] at hy
    simp [isLowerAlnum] at hy

theorem punct_pull (l : List Char) (h : hasHttpAt (punctToSpace l) = true) :
    hasHttpAt l = true := by
  rcases l with _ | ⟨a, _ | ⟨b, _ | ⟨c', _ | ⟨d, l₄⟩⟩⟩⟩
  · cases h
  · unfold hasHttpAt at h
    rw [Bool.and_eq_true] at h
    have h1 := h.1
    rw [decide_eq_true_eq] at h1
    have hlen := congrArg List.length h1
    simp [punctToSpace] at hlen
  · unfold hasHttpAt at h
    rw [Bool.and_eq_true] at h
    have h1 := h.1
    rw [decide_eq_true_eq] at h1
    have hlen := congrArg List.length h1
    simp [punctToSpace] at hlen
  · unfold hasHttpAt at h
    rw [Bool.and_eq_true] at h
    have h1 := h.1
    rw [decide_eq_true_eq] at h1
    have hlen := congrArg List.length h1
    simp [punctToSpace] at hlen
  · unfold hasHttpAt at h
    rw [Bool.and_eq_true] at h
    rcases h with ⟨h1, h2⟩
    rw [decide_eq_true_eq] at h1
    rw [show punctToSpace (a :: b :: c' :: d :: l₄) =
      (if isLowerAlnum a || pyIsSpace a then a else ' ') ::
      (if isLowerAlnum b || pyIsSpace b then b else ' ') ::
      (if isLowerAlnum c' || pyIsSpace c' then c' else ' ') ::
      (if isLowerAlnum d || pyIsSpace d then d else ' ') :: punctToSpace l₄ from rfl]
      at h1 h2
    rw [show List.take 4 ((if isLowerAlnum a || pyIsSpace a then a else ' ') ::
      (if isLowerAlnum b || pyIsSpace b then b else ' ') ::
      (if isLowerAlnum c' || pyIsSpace c' then c' else ' ') ::
      (if isLowerAlnum d || pyIsSpace d then d else ' ') :: punctToSpace l₄) =
      [(if isLowerAlnum a || pyIsSpace a then a else ' '),
       (if isLowerAlnum b || pyIsSpace b then b else ' '),
       (if isLowerAlnum c' || pyIsSpace c' then c' else ' '),
       (if isLowerAlnum d || pyIsSpace d then d else ' ')] from rfl] at h1
    injection h1 with e1 h1
    injection h1 with e2 h1
    injection h1 with e3 h1
    injection h1 with e4 _
    have ha : a = 'h' := punctChar_eq_of a 'h' (by decide) e1
    have hb : b = 't' := punctChar_eq_of b 't' (by decide) e2
    have hc2 : c' = 't' := punctChar_eq_of c' 't' (by decide) e3
    have hd : d = 'p' := punctChar_eq_of d 'p' (by decide) e4
    subst ha hb hc2 hd
    rw [show ((((if isLowerAlnum 'h' || pyIsSpace 'h' then 'h' else ' ') ::
      (if isLowerAlnum 't' || pyIsSpace 't' then 't' else ' ') ::
      (if isLowerAlnum 't' || pyIsSpace 't' then 't' else ' ') ::
      (if isLowerAlnum 'p' || pyIsSpace 'p' then 'p' else ' ') :: punctToSpace l₄)).drop 4)
      = punctToSpace l₄ from rfl] at h2
    unfold hasHttpAt
    rw [show List.take 4 ('h' :: 't' :: 't' :: 'p' :: l₄) = ['h', 't', 't', 'p'] from rfl]
    rw [show (('h' :: 't' :: 't' :: 'p' :: l₄)).drop 4 = l₄ from rfl]
    cases l₄ with
    | nil =>
      exfalso
      simp [punctToSpace, pyIsSpace] at h2
    | cons e t =>
      rw [show punctToSpace (e :: t) =
        (if isLowerAlnum e || pyIsSpace e then e else ' ') :: punctToSpace t from rfl] at h2
      simp only [List.headD_cons] at h2 ⊢
      by_cases hce : (isLowerAlnum e || pyIsSpace e) = true
      · rw [if_pos hce] at h2
        rw [h2]
        rfl
      · exfalso
        rw [if_neg hce] at h2
        simp [pyIsSpace] at h2

theorem hasHttpMatch_punct (l : List Char) (h : hasHttpMatch l = false) :
    hasHttpMatch (punctToSpace l) = false := by
  induction l with
  | nil => rfl
  | cons c cs ih =>
    rw [show hasHttpMatch (c :: cs) = (hasHttpAt (c :: cs) || hasHttpMatch cs)
      from rfl, Bool.or_eq_false_iff] at h
    rw [show punctToSpace (c :: cs) =
      (if isLowerAlnum c || pyIsSpace c then c else ' ') :: punctToSpace cs from rfl]
    rw [show hasHttpMatch ((if isLowerAlnum c || pyIsSpace c then c else ' ') ::
      punctToSpace cs) =
      (hasHttpAt ((if isLowerAlnum c || pyIsSpace c then c else ' ') :: punctToSpace cs)
        || hasHttpMatch (punctToSpace cs)) from rfl]
    rw [ih h.2]
    cases hat : hasHttpAt ((if isLowerAlnum c || pyIsSpace c then c else ' ') ::
        punctToSpace cs) with
    | false => rfl
    | true =>
      exfalso
      have : hasHttpAt (punctToSpace (c :: cs)) = true := by
        rw [show punctToSpace (c :: cs) =
          (if isLowerAlnum c || pyIsSpace c then c else ' ') :: punctToSpace cs from rfl]
        exact hat
      have h2 := punct_pull (c :: cs) this
      rw [h.1] at h2
      cases h2

theorem lowerChars_id (l : List Char)
    (h : ∀ c ∈ l, isLowerAlnum c = true ∨ c = ' ') : lowerChars l = l := by
  induction l with
  | nil => rfl
  | cons c cs ih =>
    unfold lowerChars
    rw [List.map_cons]
    rw [toLower_fix c (h c (List.mem_cons_self c cs))]
    rw [show List.map Char.toLower cs = lowerChars cs from rfl]
    rw [ih (fun c' hc' => h c' (List.mem_cons_of_mem c hc'))]

/-! ## Claim C6: master lemmas and the claim -/

theorem preprocess_shape (s : String) :
    ∃ toks : List (List Char),
      preprocess_text (some s) = String.mk (joinSpace toks) ∧ ∀ t ∈ toks, goodTok t := by
  refine ⟨(pySplit (punctToSpace (subCrlf (subHttp (lowerChars s.data))))).filter tokenKeep,
    rfl, ?_⟩
  intro t ht
  have htok : t ∈ pySplit (punctToSpace (subCrlf (subHttp (lowerChars s.data)))) :=
    (List.mem_filter.mp ht).1
  have hkeep : tokenKeep t = true := (List.mem_filter.mp ht).2
  rcases pySplitAux_sound (punctToSpace (subCrlf (subHttp (lowerChars s.data)))) []
    (by simp) t htok with ⟨hne, hns, hmem⟩
  have hchars : ∀ c ∈ t, isLowerAlnum c = true := by
    intro c hc
    have h1 : pyIsSpace c = false := hns c hc
    have h2 : c ∈ punctToSpace (subCrlf (subHttp (lowerChars s.data))) := by
      rcases hmem c hc with h | h
      · cases h
      · exact h
    have h3 := punct_chars (subCrlf (subHttp (lowerChars s.data))) c h2
    rcases Bool.or_eq_true_iff.mp h3 with h4 | h4
    · exact h4
    · rw [h4] at h1
      cases h1
  have hwithin : t <:+: punctToSpace (subCrlf (subHttp (lowerChars s.data))) := by
    have := pySplitAux_contig (punctToSpace (subCrlf (subHttp (lowerChars s.data)))) [] t htok
    simpa using this
  have hl4nm : hasHttpMatch (punctToSpace (subCrlf (subHttp (lowerChars s.data)))) = false :=
    hasHttpMatch_punct _ (hasHttpMatch_subCrlf _ (hasHttpMatch_subHttp _))
  exact ⟨hne, hchars, hkeep, hasHttpMatch_within t _ hwithin hl4nm⟩

theorem preprocess_fixed (toks : List (List Char)) (h : ∀ t ∈ toks, goodTok t) :
    preprocess_text (some (String.mk (joinSpace toks))) = String.mk (joinSpace toks) := by
  have hchars : ∀ c ∈ joinSpace toks, isLowerAlnum c = true ∨ c = ' ' := by
    intro c hc
    rcases mem_joinSpace toks c hc with h' | ⟨t, ht, hct⟩
    · right; exact h'
    · left; exact (h t ht).2.1 c hct
  have hnm : hasHttpMatch (joinSpace toks) = false :=
    hasHttpMatch_joinSpace toks (fun t ht => (h t ht).2.2.2)
  show String.mk (joinSpace ((pySplit (punctToSpace (subCrlf (subHttp
    (lowerChars (String.mk (joinSpace toks)).data))))).filter tokenKeep)) =
    String.mk (joinSpace toks)
  rw [show (String.mk (joinSpace toks)).data = joinSpace toks from rfl]
  rw [lowerChars_id _ hchars]
  rw [subHttp_id _ hnm]
  rw [subCrlf_id _ ?hcr]
  case hcr =>
    intro c hc
    rcases hchars c hc with h' | heq
    · exact alnum_not_crlf c h'
    · subst heq; decide
  rw [punctToSpace_id _ ?hpn]
  case hpn =>
    intro c hc
    rcases hchars c hc with h' | heq
    · rw [Bool.or_eq_true_iff]; left; exact h'
    · subst heq; decide
  rw [pySplit_joinSpace toks
    (fun t ht => ⟨(h t ht).1, fun c hc => alnum_not_space c ((h t ht).2.1 c hc)⟩)]
  rw [List.filter_eq_self.mpr (fun t ht => (h t ht).2.2.1)]

/-- C6 (amended): `preprocess_text` (the theme-pipeline normalizer) is
idempotent on every input, including missing/non-string ones; the claim
fails for `clean_text` (see the counterexample). -/
theorem C6_normalizer_idempotent (x : Option String) :
    preprocess_text (some (preprocess_text x)) = preprocess_text x := by
  rcases x with _ | s
  · show preprocess_text (some "") = ""
    exact preprocess_fixed [] (by intro t ht; cases ht)
  · rcases preprocess_shape s with ⟨toks, heq, hgood⟩
    rw [heq]
    exact preprocess_fixed toks hgood

/-- C6 counterexample: `clean_text` is not idempotent — deleting the
mention `@a` in `"www@a.x"` glues `"www"` to `".x"`, and the second pass
then deletes the freshly created `www.x` link. -/
theorem C6_counterexample :
    clean_text (some "www@a.x") = "www.x" ∧
    clean_text (some (clean_text (some "www@a.x"))) = "" ∧
    clean_text (some (clean_text (some "www@a.x"))) ≠ clean_text (some "www@a.x") := by
  refine ⟨by decide, by decide, ?_⟩
  rw [show clean_text (some (clean_text (some "www@a.x"))) = "" from by decide,
    show clean_text (some "www@a.x") = "www.x" from by decide]
  decide
